import Mathlib

/-!
Verification development for the R-Angular-Runtime-X-Ray call-stack
aggregation, flame-graph construction and snapshot storage engine.

The definitions below are a shallow embedding of the TypeScript sources:

* `CallStackBuilder` (src/unnamed/part_004): the live event store is a JS
  `Map<string, CallStackNode>` keyed by `callId`; since the map key always
  equals the stored node's `callId`, the store is modelled as a
  `List CallInfo` with JS-`Map` insertion semantics (`setCall`).  Stored
  nodes always carry an empty `children` array (children are only attached
  to clones inside `buildCallTree`), so stored entries are flat `CallInfo`
  records.
* JS numbers are modelled as `ℚ` (exact rational arithmetic; the spec's
  float-level properties are stated in real arithmetic).
* JS truthiness of `parentCallId` (`!node.parentCallId`): a parent id is
  "absent" when the field is `undefined` or the empty string (`effParent`).
* Recursive traversals over the call trees returned by `buildCallTree`
  (`calculateSelfTimes`, key flattening) are written with an explicit
  `fuel` bound so that they are structurally recursive and kernel
  computable.  Every child edge follows the single-parent map, so any
  path of child edges reachable from a root is a simple path; hence tree
  depth is below the store size, and any fuel of at least the store size
  reproduces the unbounded recursion of the source exactly.
-/

/- Batteries marks rational arithmetic `irreducible`, which blocks `rfl` and
`decide` on concrete rational computations; restore definitional unfolding
for this file (kernel checking is unaffected). -/
attribute [local semireducible] Rat.add Rat.sub Rat.mul

namespace XRay

/-- Fields of the TS `CallStackNode` record (src/src/types.ts) without the
recursive `children` array; nodes in the live store always have
`children = []`. -/
structure CallInfo where
  callId : String
  className : String
  methodName : String
  duration : ℚ
  startTime : ℚ
  endTime : ℚ
  parentCallId : Option String
  selfTime : ℚ
  filePath : Option String
  line : Option ℚ
deriving DecidableEq, Repr, Inhabited

/-- TS `PerformanceMessageV2` (src/src/types.ts).  The TS field `class` is a
Lean keyword, rendered here as `cls`. -/
structure PerformanceMessageV2 where
  cls : String
  method : String
  duration : ℚ
  file : Option String
  changeDetectionCount : Option ℚ
  callId : String
  parentCallId : Option String
  timestamp : ℚ
  stackDepth : ℚ
deriving DecidableEq, Repr

/-- The node constructed by `CallStackBuilder.addCall` from a message
(src/unnamed/part_004 lines 20-31). -/
def callNodeOf (m : PerformanceMessageV2) : CallInfo :=
  { callId := m.callId
    className := m.cls
    methodName := m.method
    duration := m.duration
    startTime := m.timestamp
    endTime := m.timestamp + m.duration
    parentCallId := m.parentCallId
    selfTime := m.duration
    filePath := m.file
    line := none }

/-- JS `Map.set` on a store keyed by `callId`: an existing key is overwritten
in place (iteration position preserved), a new key is appended. -/
def setCall (s : List CallInfo) (n : CallInfo) : List CallInfo :=
  if s.any (fun e => e.callId == n.callId) then
    s.map (fun e => if e.callId == n.callId then n else e)
  else s ++ [n]

/-- `CallStackBuilder.cleanup` (part_004 lines 104-116): delete every entry
whose `startTime` is older than `now - CLEANUP_THRESHOLD_MS`. -/
def cleanup (thr now : ℚ) (s : List CallInfo) : List CallInfo :=
  s.filter (fun e => !decide (e.startTime < now - thr))

/-- Default capacity bound `MAX_CALLS` (part_004 line 8). -/
def MAX_CALLS : ℕ := 10000

/-- Default retention window `CLEANUP_THRESHOLD_MS` (part_004 line 9). -/
def CLEANUP_THRESHOLD_MS : ℚ := 300000

/-- `CallStackBuilder.addCall` (part_004 lines 14-34), generalized over the
configured capacity bound and retention window (the source fixes
`maxCalls = MAX_CALLS`, `thr = CLEANUP_THRESHOLD_MS`); `now` is `Date.now()`. -/
def addCall (maxCalls : ℕ) (thr now : ℚ) (m : PerformanceMessageV2)
    (s : List CallInfo) : List CallInfo :=
  let s' := if maxCalls ≤ s.length then cleanup thr now s else s
  setCall s' (callNodeOf m)

/-- JS `Math.max` on two numbers (kernel-computable form of `max`). -/
def jsMax (a b : ℚ) : ℚ :=
  if a ≤ b then b else a

/-- JS truthiness of `parentCallId`: `undefined` and `""` count as absent. -/
def effParent (n : CallInfo) : Option String :=
  match n.parentCallId with
  | none => none
  | some p => if p = "" then none else some p

/-- A call-tree node as returned by `buildCallTree`: the cloned record plus
the attached children.  This is also the shape of the serialized
`CallStackNode` inside a persisted snapshot. -/
inductive CTree where
  | mk (info : CallInfo) (children : List CTree)

instance : Inhabited CTree := ⟨.mk default []⟩

def CTree.info : CTree → CallInfo
  | .mk i _ => i

def CTree.children : CTree → List CTree
  | .mk _ c => c

/-- The entries attached as children of the node with key `k` by the
relationship loop of `buildCallTree` (part_004 lines 66-75), in store
(JS `Map` iteration) order. -/
def childEntries (s : List CallInfo) (k : String) : List CallInfo :=
  s.filter (fun e => effParent e == some k)

/-- Unfolding of the object graph produced by `buildCallTree`'s relationship
loop, starting from a cloned entry.  `fuel` bounds the unfolding depth; any
path of child edges reachable from a root is simple (each node has at most
one parent in the map), so depth is below the store size and
`fuel = s.length` reproduces the returned object graph exactly. -/
def buildNode (s : List CallInfo) : ℕ → CallInfo → CTree
  | 0, n => .mk n []
  | fuel + 1, n => .mk n ((childEntries s n.callId).map (buildNode s fuel))

/-- `CallStackBuilder.calculateSelfTimes` (part_004 lines 86-99) as a pure
function: a leaf keeps `selfTime = duration`; an inner node gets
`max 0 (duration - Σ children.duration)` and the pass recurses into the
children.  `fuel` bounds the recursion depth; with fuel exceeding the tree
depth this is exactly the source's unbounded recursion. -/
def calculateSelfTimes (s : List CallInfo) : ℕ → CTree → CTree
  | 0, t => t
  | fuel + 1, .mk i cs =>
    if cs.isEmpty then .mk { i with selfTime := i.duration } []
    else
      .mk { i with
              selfTime := jsMax 0 (i.duration - (cs.map (fun c => c.info.duration)).sum) }
        (cs.map (calculateSelfTimes s fuel))

/-- `CallStackBuilder.buildCallTree` (part_004 lines 56-81): clone every
entry, attach each clone with a truthy resolving `parentCallId` to its
parent's children, collect entries with falsy `parentCallId` as roots, then
run the self-time pass over the roots.  A clone whose `parentCallId` is
truthy but not a key of the store is attached nowhere. -/
def buildCallTree (s : List CallInfo) : List CTree :=
  ((s.filter (fun e => effParent e == none)).map
      (fun e => buildNode s s.length e)).map (calculateSelfTimes s (s.length + 1))

/-- `Subnode r t` holds when `t` is a node of the tree rooted at `r` (the
root itself or any descendant). -/
inductive Subnode : CTree → CTree → Prop
  | refl (t : CTree) : Subnode t t
  | child {t c u : CTree} : c ∈ t.children → Subnode c u → Subnode t u

/-- The `callId`s of all nodes of a returned tree, depth bounded by `fuel`. -/
def subtreeKeys : ℕ → CTree → List String
  | 0, t => [t.info.callId]
  | fuel + 1, t => t.info.callId :: t.children.flatMap (subtreeKeys fuel)

/-- The `callId`s covered by a returned forest (all roots with all their
descendants), counted with multiplicity; `fuel` bounds the traversal depth
and is taken strictly above the depth of the trees of `buildCallTree`. -/
def forestKeys (fuel : ℕ) (f : List CTree) : List String :=
  f.flatMap (subtreeKeys fuel)

/-- Fused form of `buildNode` followed by the self-time pass; proofs relate
`buildCallTree` to this single recursion. -/
def buildFinal (s : List CallInfo) : ℕ → CallInfo → CTree
  | 0, n => .mk { n with selfTime := n.duration } []
  | fuel + 1, n =>
    let cs := childEntries s n.callId
    .mk { n with
            selfTime :=
              if cs.isEmpty then n.duration
              else jsMax 0 (n.duration - (cs.map (fun c => c.duration)).sum) }
      (cs.map (buildFinal s fuel))

/-- Store-level form of the keys covered by the subtree of one entry. -/
def subKeys (s : List CallInfo) : ℕ → CallInfo → List String
  | 0, n => [n.callId]
  | fuel + 1, n => n.callId :: (childEntries s n.callId).flatMap (subKeys s fuel)

/-- The keys of a store. -/
def keys (s : List CallInfo) : List String :=
  s.map (fun e => e.callId)

/-- `Map.get` by `callId` (first entry; under `Nodup (keys s)` the only one). -/
def lookupCall (s : List CallInfo) (k : String) : Option CallInfo :=
  s.find? (fun e => e.callId == k)

/-- The effective parent key of the entry stored under `k`. -/
def pf (s : List CallInfo) (k : String) : Option String :=
  (lookupCall s k).bind effParent

/-- `d`-fold iterated effective parent. -/
def pIter (s : List CallInfo) : ℕ → String → Option String
  | 0, k => some k
  | d + 1, k => (pf s k).bind (pIter s d)

/-! ### `addCall` under JS dynamic typing (no input validation)

`addCall` performs no shape validation: TypeScript types are erased at
runtime and the extension casts the incoming message with `as any`
(src/src/extension.ts line 931), so a record missing required fields flows
through `addCall` unchecked.  `RawPerformanceMessage` is the wire record
with every field possibly absent; `addCallRaw` is the very same `addCall`
code evaluated under JS semantics on such a record (`undefined`
arithmetic gives `NaN`, modelled as `none`; `undefined < cutoff` is
`false`, so an entry without `startTime` survives cleanup). -/

/-- An incoming record in which any required field may be missing. -/
structure RawPerformanceMessage where
  cls : Option String
  method : Option String
  duration : Option ℚ
  file : Option String
  changeDetectionCount : Option ℚ
  callId : Option String
  parentCallId : Option String
  timestamp : Option ℚ
  stackDepth : Option ℚ
deriving DecidableEq, Repr

/-- The stored node built by `addCall` from a possibly malformed record. -/
structure RawCallInfo where
  callId : Option String
  className : Option String
  methodName : Option String
  duration : Option ℚ
  startTime : Option ℚ
  endTime : Option ℚ
  parentCallId : Option String
  selfTime : Option ℚ
  filePath : Option String
deriving DecidableEq, Repr

/-- The node literal of `addCall` (part_004 lines 20-31) on a raw record;
`endTime = timestamp + duration` is `NaN` (`none`) when either operand is
missing. -/
def rawNodeOf (m : RawPerformanceMessage) : RawCallInfo :=
  { callId := m.callId
    className := m.cls
    methodName := m.method
    duration := m.duration
    startTime := m.timestamp
    endTime :=
      match m.timestamp, m.duration with
      | some t, some d => some (t + d)
      | _, _ => none
    parentCallId := m.parentCallId
    selfTime := m.duration
    filePath := m.file }

/-- `Map.set` keyed by the (possibly `undefined`) `callId`. -/
def setRawCall (s : List RawCallInfo) (n : RawCallInfo) : List RawCallInfo :=
  if s.any (fun e => e.callId == n.callId) then
    s.map (fun e => if e.callId == n.callId then n else e)
  else s ++ [n]

/-- `cleanup` on raw nodes: `undefined < cutoff` is `false` in JS, so an
entry without a `startTime` is never evicted. -/
def cleanupRaw (thr now : ℚ) (s : List RawCallInfo) : List RawCallInfo :=
  s.filter (fun e =>
    !(match e.startTime with
      | some t => decide (t < now - thr)
      | none => false))

/-- `addCall` evaluated on a raw (possibly malformed) record: no check, no
rejection, the node is always stored. -/
def addCallRaw (maxCalls : ℕ) (thr now : ℚ) (m : RawPerformanceMessage)
    (s : List RawCallInfo) : List RawCallInfo :=
  let s' := if maxCalls ≤ s.length then cleanupRaw thr now s else s
  setRawCall s' (rawNodeOf m)

/-! ### Per-method aggregation (`handlePerformanceMessage`)

Two copies of the handler exist in the repository.  The copy in
src/src/extension.ts (lines 879-912) creates a fresh aggregate with
`executions: []` and `averageDuration: 0` and runs the
push/average/lastDuration update only in the `else` branch, so the first
observation is never appended; the copy in src/unnamed/part_000
(lines 385-412) runs the update block unconditionally after creating the
aggregate, so every observation is appended. -/

/-- TS `MethodPerformanceData` (src/src/types.ts). -/
structure MethodPerformanceData where
  className : String
  methodName : String
  filePath : Option String
  line : Option ℚ
  executions : List ℚ
  averageDuration : ℚ
  lastDuration : ℚ
  changeDetectionCount : Option ℚ
deriving DecidableEq, Repr

/-- JS truthiness of an optional string (`undefined` and `""` are falsy). -/
def truthyStr : Option String → Bool
  | none => false
  | some x => x != ""

/-- JS truthiness of an optional number (`undefined` and `0` are falsy). -/
def truthyNum : Option ℚ → Bool
  | none => false
  | some q => q != 0

/-- JS `Map.set` on a string-keyed association list. -/
def mapSet {ν : Type} (s : List (String × ν)) (k : String) (v : ν) :
    List (String × ν) :=
  if s.any (fun e => e.1 == k) then
    s.map (fun e => if e.1 == k then (k, v) else e)
  else s ++ [(k, v)]

/-- The fresh aggregate created for an unseen key (both copies):
`executions: []`, `averageDuration: 0`, `lastDuration: duration`. -/
def freshPerfData (cls method : String) (filePath : Option String)
    (methodLine : Option ℚ) (d : ℚ) (cdc : Option ℚ) : MethodPerformanceData :=
  { className := cls
    methodName := method
    filePath := filePath
    line := methodLine
    executions := []
    averageDuration := 0
    lastDuration := d
    changeDetectionCount := cdc }

/-- The update block shared by both copies: push the duration, set
`lastDuration`, recompute `averageDuration = sum / length`, and update
`changeDetectionCount` when present. -/
def updatePerfData (pd : MethodPerformanceData) (d : ℚ) (cdc : Option ℚ) :
    MethodPerformanceData :=
  let ex := pd.executions ++ [d]
  { pd with
      executions := ex
      lastDuration := d
      averageDuration := ex.sum / ex.length
      changeDetectionCount :=
        match cdc with
        | some c => some c
        | none => pd.changeDetectionCount }

/-- Store update of `handlePerformanceMessage` in src/src/extension.ts
(lines 879-912): for an unseen key the fresh aggregate is stored as is; for
a seen key the location is refreshed only when both `filePath` and
`methodLine` are truthy, then the update block runs. -/
def updateStoreExt (store : List (String × MethodPerformanceData))
    (cls method : String) (d : ℚ) (filePath : Option String)
    (methodLine : Option ℚ) (cdc : Option ℚ) :
    List (String × MethodPerformanceData) :=
  let key := cls ++ "." ++ method
  match (store.find? (fun e => e.1 == key)).map (fun e => e.2) with
  | none => mapSet store key (freshPerfData cls method filePath methodLine d cdc)
  | some pd =>
    let pd1 :=
      if truthyStr filePath && truthyNum methodLine then
        { pd with filePath := filePath, line := methodLine }
      else pd
    mapSet store key (updatePerfData pd1 d cdc)

/-- Store update of `handlePerformanceMessage` in src/unnamed/part_000
(lines 385-412): the fresh aggregate is created for an unseen key, and the
update block then runs unconditionally on the stored aggregate. -/
def updateStoreV0 (store : List (String × MethodPerformanceData))
    (cls method : String) (d : ℚ) (filePath : Option String)
    (methodLine : Option ℚ) (cdc : Option ℚ) :
    List (String × MethodPerformanceData) :=
  let key := cls ++ "." ++ method
  let pd0 :=
    match (store.find? (fun e => e.1 == key)).map (fun e => e.2) with
    | none => freshPerfData cls method filePath methodLine d cdc
    | some pd => pd
  mapSet store key (updatePerfData pd0 d cdc)

/-! ### Snapshot codec (`SnapshotStorageManager.saveSnapshot` / `loadSnapshot`)

`saveSnapshot` (src/unnamed/part_002 lines 38-59) spreads the snapshot,
replaces the `methods` map by `Object.fromEntries(map)`, serializes with
`JSON.stringify` and compresses; `loadSnapshot` (lines 64-86) decompresses,
parses, and rebuilds the map with `new Map(Object.entries(data.methods))`.
The JSON document is modelled as the `JsVal` tree; `JSON.stringify` plus
compression is an injective serialization abstracted as a `compress`
function whose `decompress` partner is assumed to be its inverse (the
claim's hypothesis).  A JS `Map` has unique keys, so `Object.fromEntries` /
`Object.entries` act as the identity on its entry list, which is how
`methods` is modelled.  `JSON.stringify` omits `undefined`-valued
(optional) fields, modelled by omitting the key. -/

/-- A JSON value (JS object key order as produced by the code). -/
inductive JsVal where
  | null
  | bool (b : Bool)
  | num (q : ℚ)
  | str (s : String)
  | arr (elems : List JsVal)
  | obj (fields : List (String × JsVal))

/-- Field lookup in a JSON object. -/
def lookupJs (fields : List (String × JsVal)) (k : String) : Option JsVal :=
  (fields.find? (fun f => f.1 == k)).map (fun f => f.2)

/-- An optional string field: omitted when `undefined`. -/
def optStrField (k : String) : Option String → List (String × JsVal)
  | none => []
  | some x => [(k, .str x)]

/-- An optional numeric field: omitted when `undefined`. -/
def optNumField (k : String) : Option ℚ → List (String × JsVal)
  | none => []
  | some q => [(k, .num q)]

mutual

/-- JSON form of a serialized `CallStackNode`. -/
def ctreeToJs : CTree → JsVal
  | .mk i cs =>
    .obj ([("callId", .str i.callId),
           ("className", .str i.className),
           ("methodName", .str i.methodName),
           ("duration", .num i.duration),
           ("startTime", .num i.startTime),
           ("endTime", .num i.endTime),
           ("children", .arr (ctreeListToJs cs)),
           ("selfTime", .num i.selfTime)] ++
          optStrField "parentCallId" i.parentCallId ++
          optStrField "filePath" i.filePath ++
          optNumField "line" i.line)

def ctreeListToJs : List CTree → List JsVal
  | [] => []
  | t :: ts => ctreeToJs t :: ctreeListToJs ts

end

mutual

/-- Typed reading of a serialized `CallStackNode` back from JSON. -/
def jsToCtree : JsVal → Option CTree
  | .obj fields =>
    match decodeChildrenField fields with
    | some cs =>
      match lookupJs fields "callId", lookupJs fields "className",
          lookupJs fields "methodName", lookupJs fields "duration",
          lookupJs fields "startTime", lookupJs fields "endTime",
          lookupJs fields "selfTime" with
      | some (.str cid), some (.str cn), some (.str mn), some (.num du),
          some (.num st), some (.num et), some (.num sf) =>
        some (.mk
          { callId := cid
            className := cn
            methodName := mn
            duration := du
            startTime := st
            endTime := et
            parentCallId :=
              match lookupJs fields "parentCallId" with
              | some (.str p) => some p
              | _ => none
            selfTime := sf
            filePath :=
              match lookupJs fields "filePath" with
              | some (.str x) => some x
              | _ => none
            line :=
              match lookupJs fields "line" with
              | some (.num q) => some q
              | _ => none } cs)
      | _, _, _, _, _, _, _ => none
    | none => none
  | _ => none

/-- Find the `children` field and decode its element list (structured so
that the recursion stays on direct subterms). -/
def decodeChildrenField : List (String × JsVal) → Option (List CTree)
  | [] => none
  | (k, v) :: rest =>
    if k == "children" then
      match v with
      | .arr elems => jsToCtreeList elems
      | _ => none
    else decodeChildrenField rest

def jsToCtreeList : List JsVal → Option (List CTree)
  | [] => some []
  | v :: vs =>
    match jsToCtree v, jsToCtreeList vs with
    | some t, some ts => some (t :: ts)
    | _, _ => none

end

/-- JSON form of a `MethodPerformanceData` aggregate. -/
def methodDataToJs (md : MethodPerformanceData) : JsVal :=
  .obj ([("className", .str md.className),
         ("methodName", .str md.methodName)] ++
        optStrField "filePath" md.filePath ++
        optNumField "line" md.line ++
        [("executions", .arr (md.executions.map (fun q => .num q))),
         ("averageDuration", .num md.averageDuration),
         ("lastDuration", .num md.lastDuration)] ++
        optNumField "changeDetectionCount" md.changeDetectionCount)

/-- Typed reading of a numeric array. -/
def jsToNumList : List JsVal → Option (List ℚ)
  | [] => some []
  | .num q :: vs =>
    match jsToNumList vs with
    | some qs => some (q :: qs)
    | none => none
  | _ :: _ => none

/-- Typed reading of a `MethodPerformanceData` aggregate from JSON. -/
def jsToMethodData : JsVal → Option MethodPerformanceData
  | .obj fields =>
    match lookupJs fields "className", lookupJs fields "methodName",
        lookupJs fields "executions", lookupJs fields "averageDuration",
        lookupJs fields "lastDuration" with
    | some (.str cn), some (.str mn), some (.arr exJs), some (.num avg),
        some (.num last) =>
      match jsToNumList exJs with
      | some ex =>
        some
          { className := cn
            methodName := mn
            filePath :=
              match lookupJs fields "filePath" with
              | some (.str x) => some x
              | _ => none
            line :=
              match lookupJs fields "line" with
              | some (.num q) => some q
              | _ => none
            executions := ex
            averageDuration := avg
            lastDuration := last
            changeDetectionCount :=
              match lookupJs fields "changeDetectionCount" with
              | some (.num q) => some q
              | _ => none }
      | none => none
    | _, _, _, _, _ => none
  | _ => none

/-- The `metadata` record of a TS `PerformanceSnapshot`. -/
structure SnapMeta where
  totalMethods : ℚ
  totalCalls : ℚ
  captureStartTime : ℚ
  captureEndTime : ℚ
deriving DecidableEq, Repr

/-- TS `PerformanceSnapshot` (src/src/types.ts); the `methods` JS map is its
entry list (unique keys). -/
structure PerformanceSnapshot where
  id : String
  name : String
  timestamp : ℚ
  gitBranch : Option String
  gitCommit : Option String
  methods : List (String × MethodPerformanceData)
  callStacks : List CTree
  metadata : SnapMeta

/-- JSON form of the `metadata` record. -/
def metaToJs (md : SnapMeta) : JsVal :=
  .obj [("totalMethods", .num md.totalMethods),
        ("totalCalls", .num md.totalCalls),
        ("captureStartTime", .num md.captureStartTime),
        ("captureEndTime", .num md.captureEndTime)]

/-- Typed reading of the `metadata` record. -/
def jsToMeta : JsVal → Option SnapMeta
  | .obj fields =>
    match lookupJs fields "totalMethods", lookupJs fields "totalCalls",
        lookupJs fields "captureStartTime", lookupJs fields "captureEndTime" with
    | some (.num tm), some (.num tc), some (.num cs), some (.num ce) =>
      some { totalMethods := tm, totalCalls := tc, captureStartTime := cs,
             captureEndTime := ce }
    | _, _, _, _ => none
  | _ => none

/-- Typed reading of the serialized `methods` entries. -/
def jsToMethodsEntries : List (String × JsVal) →
    Option (List (String × MethodPerformanceData))
  | [] => some []
  | (k, v) :: rest =>
    match jsToMethodData v, jsToMethodsEntries rest with
    | some md, some r => some ((k, md) :: r)
    | _, _ => none

/-- The JSON document written by `saveSnapshot` (part_002 lines 40-46):
the snapshot spread with `methods` replaced by its entries object. -/
def snapshotToJs (s : PerformanceSnapshot) : JsVal :=
  .obj ([("id", .str s.id),
         ("name", .str s.name),
         ("timestamp", .num s.timestamp)] ++
        optStrField "gitBranch" s.gitBranch ++
        optStrField "gitCommit" s.gitCommit ++
        [("methods", .obj (s.methods.map (fun e => (e.1, methodDataToJs e.2)))),
         ("callStacks", .arr (ctreeListToJs s.callStacks)),
         ("metadata", metaToJs s.metadata)])

/-- Typed reading of the parsed document performed by `loadSnapshot`
(part_002 lines 76-82), including `methods: new Map(Object.entries(...))`. -/
def jsToSnapshot : JsVal → Option PerformanceSnapshot
  | .obj fields =>
    match lookupJs fields "id", lookupJs fields "name",
        lookupJs fields "timestamp", lookupJs fields "methods",
        lookupJs fields "callStacks", lookupJs fields "metadata" with
    | some (.str sid), some (.str nm), some (.num ts), some (.obj mf),
        some (.arr csJs), some metaJs =>
      match jsToMethodsEntries mf, jsToCtreeList csJs, jsToMeta metaJs with
      | some ms, some cs, some md =>
        some
          { id := sid
            name := nm
            timestamp := ts
            gitBranch :=
              match lookupJs fields "gitBranch" with
              | some (.str b) => some b
              | _ => none
            gitCommit :=
              match lookupJs fields "gitCommit" with
              | some (.str c) => some c
              | _ => none
            methods := ms
            callStacks := cs
            metadata := md }
      | _, _, _ => none
    | _, _, _, _, _, _ => none
  | _ => none

/-- `saveSnapshot`'s byte production: serialize the document, then compress
(`compress` stands for `JSON.stringify` composed with
`compressSnapshotData`). -/
def saveSnapshotBytes {β : Type} (compress : JsVal → β)
    (s : PerformanceSnapshot) : β :=
  compress (snapshotToJs s)

/-- `loadSnapshot`'s reconstruction: decompress and parse back to a
document (`decompress`), then rebuild the typed snapshot. -/
def loadSnapshotBytes {β : Type} (decompress : β → Option JsVal) (b : β) :
    Option PerformanceSnapshot :=
  (decompress b).bind jsToSnapshot

/-! ### Persisted snapshot lifecycle (`SnapshotStorageManager`)

The persisted store is the directory of snapshot files.  Files written by
`saveSnapshot` are named `snapshot_${timestamp}_${sanitize(name)}.json.gz`,
and `listSnapshots` parses exactly that shape back, so the store is
modelled at the parsed level as a list of `(timestamp, sanitized name)`
records in directory order, with the file name derived.  Lookup and
deletion by id are substring searches over file names
(`files.find((f) => f.includes(id))`), modelled by `occursIn` over
character lists. -/

/-- A persisted snapshot file: creation timestamp and sanitized name. -/
structure SnapFile where
  ts : Int
  name : String
deriving DecidableEq, Repr

/-- `sanitize` (part_002 lines 166-168): non-alphanumerics to `_`, then
lower-case. -/
def sanitize (name : String) : String :=
  String.mk (name.toList.map (fun c => if c.isAlphanum then c.toLower else '_'))

/-- The deterministic file name of a persisted snapshot (part_002 line 49). -/
def fileNameOf (f : SnapFile) : String :=
  "snapshot_" ++ toString f.ts ++ "_" ++ f.name ++ ".json.gz"

/-- The id under which a snapshot is listed: its timestamp rendered as a
string (part_002 lines 97-103). -/
def idOf (f : SnapFile) : String :=
  toString f.ts

/-- Whether `sub` matches at the head of `l`. -/
def leadMatch : List Char → List Char → Bool
  | [], _ => true
  | _ :: _, [] => false
  | c :: cs, d :: ds => c == d && leadMatch cs ds

/-- Whether `sub` occurs contiguously anywhere in `l`. -/
def occursIn (sub : List Char) : List Char → Bool
  | [] => leadMatch sub []
  | d :: ds => leadMatch sub (d :: ds) || occursIn sub ds

/-- JS `String.prototype.includes`. -/
def strContains (s sub : String) : Bool :=
  occursIn sub.toList s.toList

/-- `listSnapshots` (part_002 lines 91-113): parse the files and sort most
recent first (JS sort is stable; insertion sort models it). -/
def listSnapshotsSorted (store : List SnapFile) : List SnapFile :=
  store.insertionSort (fun a b => b.ts ≤ a.ts)

/-- `deleteSnapshot` (part_002 lines 118-132): remove the first file whose
name contains the id; `none` when no file name contains it (the thrown
not-found error). -/
def deleteByIdOpt (id : String) (store : List SnapFile) :
    Option (List SnapFile) :=
  if store.any (fun f => strContains (fileNameOf f) id) then
    some (store.eraseP (fun f => strContains (fileNameOf f) id))
  else none

/-- The selection made by `loadSnapshot`/`deleteSnapshot`: the first stored
file whose name contains `id` as a substring. -/
def findFile (id : String) (store : List SnapFile) : Option SnapFile :=
  store.find? (fun f => strContains (fileNameOf f) id)

/-- A sequence of `deleteSnapshot` calls inside a `try` block: a failing
delete aborts the remaining deletions (the surrounding `catch` only logs). -/
def runDeletes : List String → List SnapFile → List SnapFile
  | [], store => store
  | id :: rest, store =>
    match deleteByIdOpt id store with
    | some st => runDeletes rest st
    | none => store

/-- `MAX_SNAPSHOTS` (part_002 line 11). -/
def MAX_SNAPSHOTS : ℕ := 50

/-- `MAX_AGE_DAYS` in milliseconds (part_002 lines 12, 214). -/
def MAX_AGE_MS : Int := 2592000000

/-- `enforceSnapshotLimit` (part_002 lines 186-206), generalized over the
configured maximum: delete every snapshot beyond the `maxSnaps` most
recent, oldest excess by timestamp. -/
def enforceSnapshotLimit (maxSnaps : ℕ) (store : List SnapFile) :
    List SnapFile :=
  runDeletes (((listSnapshotsSorted store).drop maxSnaps).map idOf) store

/-- `cleanupOldSnapshots` (part_002 lines 211-232): delete every snapshot
older than the 30-day cutoff. -/
def cleanupOldSnapshots (now : Int) (store : List SnapFile) : List SnapFile :=
  runDeletes
    (((listSnapshotsSorted store).filter
        (fun f => decide (f.ts < now - MAX_AGE_MS))).map idOf) store

/-- The store-open path: the constructor (part_002 lines 14-21) runs only
`cleanupOldSnapshots`. -/
def openStore (now : Int) (store : List SnapFile) : List SnapFile :=
  cleanupOldSnapshots now store

/-- The save path (part_002 lines 38-59): write the new file, then run only
`enforceSnapshotLimit`. -/
def saveSnapshotFile (maxSnaps : ℕ) (ts : Int) (name : String)
    (store : List SnapFile) : List SnapFile :=
  enforceSnapshotLimit maxSnaps (store ++ [{ ts := ts, name := sanitize name }])

/-- A well-behaved snapshot directory: distinct timestamps, and no snapshot
id occurs as a substring of another snapshot's file name (e.g. timestamps of
equal digit length). -/
def GoodStore (store : List SnapFile) : Prop :=
  (store.map (fun f => f.ts)).Nodup ∧
    ∀ f ∈ store, ∀ g ∈ store, strContains (fileNameOf g) (idOf f) = true → f = g

instance (store : List SnapFile) : Decidable (GoodStore store) := by
  unfold GoodStore
  infer_instance

/-! ### Concrete inputs for the witnesses and counterexamples -/

/-- A message with fixed metadata and the given identity, parent, duration
and timestamp. -/
def demoMsg (cid : String) (p : Option String) (d ts : ℚ) :
    PerformanceMessageV2 :=
  { cls := "AppComponent", method := "render", duration := d, file := none,
    changeDetectionCount := none, callId := cid, parentCallId := p,
    timestamp := ts, stackDepth := 0 }

/-- A single stored event whose `parentCallId` does not resolve. -/
def danglingStore : List CallInfo :=
  [callNodeOf (demoMsg "a" (some "zz") 7 0)]

/-- Two events: a 100ms root `a` and its 40ms child `b`. -/
def twoCallStore : List CallInfo :=
  addCall MAX_CALLS CLEANUP_THRESHOLD_MS 5 (demoMsg "b" (some "a") 40 1)
    (addCall MAX_CALLS CLEANUP_THRESHOLD_MS 5 (demoMsg "a" none 100 0) [])

/-- A root with two children inserted in the order `b` (startTime 10) then
`a` (startTime 5). -/
def siblingStore : List CallInfo :=
  [callNodeOf (demoMsg "p" none 100 0),
   callNodeOf (demoMsg "b" (some "p") 1 10),
   callNodeOf (demoMsg "a" (some "p") 1 5)]

/-- Capacity 2: the first two fresh root events, inserted at times 0 and 1. -/
def twoFreshStore : List CallInfo :=
  addCall 2 CLEANUP_THRESHOLD_MS 1 (demoMsg "b" none 1 1)
    (addCall 2 CLEANUP_THRESHOLD_MS 0 (demoMsg "a" none 1 0) [])

/-- Capacity 2: three fresh root events inserted at times 0, 1, 2 with the
clock at the insertion time. -/
def capacity3Store : List CallInfo :=
  addCall 2 CLEANUP_THRESHOLD_MS 2 (demoMsg "c" none 1 2) twoFreshStore

/-- A store holding a single root event `a`. -/
def rootOnlyStore : List CallInfo :=
  addCall 10 CLEANUP_THRESHOLD_MS 0 (demoMsg "a" none 3 0) []

/-- A duplicate insert for the key `a` with different timing fields. -/
def dupRootMsg : PerformanceMessageV2 :=
  demoMsg "a" none 5 1

/-- A root event overwritten by a duplicate insert whose `parentCallId`
does not resolve. -/
def duplicateStore : List CallInfo :=
  addCall 10 CLEANUP_THRESHOLD_MS 1 (demoMsg "a" (some "zz") 5 1)
    (addCall 10 CLEANUP_THRESHOLD_MS 0 (demoMsg "a" none 3 0) [])

/-- An incoming record missing the required `method`, `duration`,
`timestamp` and `stackDepth` fields. -/
def badRawMessage : RawPerformanceMessage :=
  { cls := some "AppComponent", method := none, duration := none,
    file := none, changeDetectionCount := none, callId := some "x",
    parentCallId := none, timestamp := none, stackDepth := none }

/-- The aggregate created by the src/src/extension.ts handler for a fresh
key on its first observation (duration 5 with a resolved location). -/
def c8FreshAggregate : MethodPerformanceData :=
  freshPerfData "AppComponent" "render" (some "app.ts") (some 3) 5 none

/-- The aggregate the part_000 handler produces for the same first
observation: the fresh aggregate with the update block applied. -/
def c8UpdatedAggregate : MethodPerformanceData :=
  updatePerfData c8FreshAggregate 5 none

/-- A small aggregate for the codec witness. -/
def demoMethodData : MethodPerformanceData :=
  { className := "AppComponent", methodName := "render",
    filePath := some "app.ts", line := some 3, executions := [1, 2],
    averageDuration := 3/2, lastDuration := 2, changeDetectionCount := none }

/-- A small snapshot exercising every field shape of the codec. -/
def demoSnapshot : PerformanceSnapshot :=
  { id := "1", name := "n", timestamp := 10, gitBranch := none,
    gitCommit := some "abc",
    methods := [("AppComponent.render", demoMethodData)],
    callStacks :=
      [.mk (callNodeOf (demoMsg "a" none 100 0))
          [.mk (callNodeOf (demoMsg "b" (some "a") 40 1)) []]],
    metadata := { totalMethods := 1, totalCalls := 2, captureStartTime := 0,
                  captureEndTime := 10 } }

/-- 51 snapshot files, all created within the last 30 days of `now = 1000`. -/
def recent51 : List SnapFile :=
  (List.range 51).map (fun i => { ts := (i : Int), name := "s" })

/-- Two snapshot files whose ids collide as substrings: the id `12` occurs
in the file name of snapshot `123`, which is listed first. -/
def demoFiles : List SnapFile :=
  [{ ts := 123, name := "b" }, { ts := 12, name := "a" }]

/-- A collision-free two-file directory for the eviction witness. -/
def goodDemoFiles : List SnapFile :=
  [{ ts := 100, name := "a" }, { ts := 7, name := "b" }]

/-! ## Lemmas -/

theorem jsMax_eq_max (a b : ℚ) : jsMax a b = max a b := by
  simp [jsMax, max_def]

theorem CTree.info_mk (i : CallInfo) (cs : List CTree) :
    (CTree.mk i cs).info = i := rfl

theorem CTree.children_mk (i : CallInfo) (cs : List CTree) :
    (CTree.mk i cs).children = cs := rfl

theorem mem_keys {s : List CallInfo} {k : String} :
    k ∈ keys s ↔ ∃ e ∈ s, e.callId = k := by
  simp [keys]

theorem lookupCall_self {s : List CallInfo} (hnd : (keys s).Nodup)
    {e : CallInfo} (he : e ∈ s) : lookupCall s e.callId = some e := by
  induction s with
  | nil => cases he
  | cons a t ih =>
    rw [keys, List.map_cons, List.nodup_cons] at hnd
    rcases List.mem_cons.mp he with rfl | ht
    · simp [lookupCall]
    · have hne : (a.callId == e.callId) = false := by
        rw [beq_eq_false_iff_ne]
        intro hEq
        exact hnd.1 (hEq ▸ List.mem_map_of_mem (fun x => x.callId) ht)
      simpa [lookupCall, List.find?_cons, hne] using ih hnd.2 ht

theorem pf_of_mem {s : List CallInfo} (hnd : (keys s).Nodup) {e : CallInfo}
    (he : e ∈ s) : pf s e.callId = effParent e := by
  simp [pf, lookupCall_self hnd he]

theorem pf_entry {s : List CallInfo} {k p : String} (h : pf s k = some p) :
    ∃ e ∈ s, e.callId = k ∧ effParent e = some p := by
  unfold pf lookupCall at h
  cases hf : s.find? (fun e => e.callId == k) with
  | none => rw [hf] at h; cases h
  | some e =>
    rw [hf] at h
    refine ⟨e, List.mem_of_find?_eq_some hf, ?_, h⟩
    have := List.find?_some hf
    exact beq_iff_eq.mp this

theorem mem_childEntries {s : List CallInfo} {k : String} {c : CallInfo} :
    c ∈ childEntries s k ↔ c ∈ s ∧ effParent c = some k := by
  simp [childEntries, List.mem_filter]

theorem pIter_one (s : List CallInfo) (k : String) : pIter s 1 k = pf s k := by
  cases h : pf s k <;> simp [pIter, h]

theorem pIter_add (s : List CallInfo) (a b : ℕ) (k : String) :
    pIter s (a + b) k = (pIter s a k).bind (pIter s b) := by
  induction a generalizing k with
  | zero => simp [pIter]
  | succ a ih =>
    have hadd : a + 1 + b = (a + b) + 1 := by omega
    rw [hadd]
    show (pf s k).bind (pIter s (a + b)) = ((pf s k).bind (pIter s a)).bind (pIter s b)
    cases hp : pf s k with
    | none => rfl
    | some p => simp [ih p]

theorem pIter_succ_last (s : List CallInfo) (d : ℕ) (k : String) :
    pIter s (d + 1) k = (pIter s d k).bind (pf s) := by
  rw [pIter_add s d 1 k]
  cases h : pIter s d k with
  | none => rfl
  | some m => simp [pIter_one]

theorem pIter_rank_le {s : List CallInfo} {rank : String → ℕ}
    (hrank : ∀ k p, pf s k = some p → rank p < rank k) :
    ∀ d k m, pIter s d k = some m → rank m + d ≤ rank k := by
  intro d
  induction d with
  | zero => intro k m h; cases h; omega
  | succ d ih =>
    intro k m h
    rw [show d + 1 = 1 + d by omega, pIter_add, pIter_one] at h
    cases hp : pf s k with
    | none => rw [hp] at h; cases h
    | some p =>
      rw [hp] at h
      have h1 := ih p m h
      have h2 := hrank k p hp
      omega

theorem pIter_self {s : List CallInfo} {rank : String → ℕ}
    (hrank : ∀ k p, pf s k = some p → rank p < rank k) {d : ℕ} {k : String}
    (h : pIter s d k = some k) : d = 0 := by
  have := pIter_rank_le hrank d k k h
  omega

theorem pIter_sub {s : List CallInfo} {d1 d2 : ℕ} {x k1 k2 : String}
    (hle : d1 ≤ d2) (h1 : pIter s d1 x = some k1)
    (h2 : pIter s d2 x = some k2) : pIter s (d2 - d1) k1 = some k2 := by
  rw [show d2 = d1 + (d2 - d1) by omega, pIter_add, h1] at h2
  simpa using h2

theorem pIter_eq_aux {s : List CallInfo} {rank : String → ℕ}
    (hrank : ∀ k p, pf s k = some p → rank p < rank k)
    {a b : ℕ} {x k1 k2 r : String} (hle : a ≤ b)
    (h1 : pIter s a x = some k1) (h2 : pIter s b x = some k2)
    (p1 : pf s k1 = some r) (p2 : pf s k2 = some r) : k1 = k2 := by
  have ha : pIter s (a + 1) x = some r := by
    rw [pIter_succ_last, h1]; simpa using p1
  have hb : pIter s (b + 1) x = some r := by
    rw [pIter_succ_last, h2]; simpa using p2
  have hsub := pIter_sub (by omega : a + 1 ≤ b + 1) ha hb
  have hz : b + 1 - (a + 1) = 0 := pIter_self hrank hsub
  have hab : a = b := by omega
  subst hab
  rw [h1] at h2
  exact (Option.some.inj h2).symm |>.symm

theorem pIter_eq_of_pf_eq {s : List CallInfo} {rank : String → ℕ}
    (hrank : ∀ k p, pf s k = some p → rank p < rank k)
    {a b : ℕ} {x k1 k2 r : String}
    (h1 : pIter s a x = some k1) (h2 : pIter s b x = some k2)
    (p1 : pf s k1 = some r) (p2 : pf s k2 = some r) : k1 = k2 := by
  rcases Nat.le_total a b with h | h
  · exact pIter_eq_aux hrank h h1 h2 p1 p2
  · exact (pIter_eq_aux hrank h h2 h1 p2 p1).symm

theorem pIter_eq_of_pf_none_aux {s : List CallInfo} {a b : ℕ}
    {x k1 k2 : String} (hle : a ≤ b) (h1 : pIter s a x = some k1)
    (h2 : pIter s b x = some k2) (p1 : pf s k1 = none) : k1 = k2 := by
  have hsub := pIter_sub hle h1 h2
  cases he : b - a with
  | zero => rw [he] at hsub; exact Option.some.inj hsub
  | succ e =>
    rw [he] at hsub
    rw [show e + 1 = 1 + e by omega, pIter_add, pIter_one, p1] at hsub
    cases hsub

theorem pIter_eq_of_pf_none {s : List CallInfo} {a b : ℕ} {x k1 k2 : String}
    (h1 : pIter s a x = some k1) (h2 : pIter s b x = some k2)
    (p1 : pf s k1 = none) (p2 : pf s k2 = none) : k1 = k2 := by
  rcases Nat.le_total a b with h | h
  · exact pIter_eq_of_pf_none_aux h h1 h2 p1
  · exact (pIter_eq_of_pf_none_aux h h2 h1 p2).symm

theorem head_mem_subKeys (s : List CallInfo) (f : ℕ) (n : CallInfo) :
    n.callId ∈ subKeys s f n := by
  cases f <;> simp [subKeys]

theorem mem_subKeys {s : List CallInfo} (hnd : (keys s).Nodup) :
    ∀ (f : ℕ) (n : CallInfo) (x : String), x ∈ subKeys s f n →
      ∃ d ≤ f, pIter s d x = some n.callId := by
  intro f
  induction f with
  | zero =>
    intro n x hx
    rw [subKeys, List.mem_singleton] at hx
    exact ⟨0, by omega, by simp [pIter, hx]⟩
  | succ f ih =>
    intro n x hx
    rw [subKeys, List.mem_cons] at hx
    rcases hx with rfl | hx
    · exact ⟨0, by omega, by simp [pIter]⟩
    · rw [List.mem_flatMap] at hx
      obtain ⟨c, hc, hxc⟩ := hx
      obtain ⟨hcs, hcp⟩ := mem_childEntries.mp hc
      obtain ⟨d, hdf, hchain⟩ := ih c x hxc
      refine ⟨d + 1, by omega, ?_⟩
      rw [pIter_succ_last, hchain]
      simpa [pf_of_mem hnd hcs] using hcp

theorem subKeys_mem_keys {s : List CallInfo} :
    ∀ (f : ℕ) (n : CallInfo) (x : String), x ∈ subKeys s f n →
      x = n.callId ∨ x ∈ keys s := by
  intro f
  induction f with
  | zero =>
    intro n x hx
    rw [subKeys, List.mem_singleton] at hx
    exact Or.inl hx
  | succ f ih =>
    intro n x hx
    rw [subKeys, List.mem_cons] at hx
    rcases hx with rfl | hx
    · exact Or.inl rfl
    · rw [List.mem_flatMap] at hx
      obtain ⟨c, hc, hxc⟩ := hx
      obtain ⟨hcs, _⟩ := mem_childEntries.mp hc
      rcases ih c x hxc with rfl | hk
      · exact Or.inr (mem_keys.mpr ⟨c, hcs, rfl⟩)
      · exact Or.inr hk

theorem subKeys_of_pIter {s : List CallInfo} :
    ∀ (d f : ℕ), d ≤ f → ∀ (c n : CallInfo), c ∈ s →
      pIter s d c.callId = some n.callId → c.callId ∈ subKeys s f n := by
  intro d
  induction d with
  | zero =>
    intro f _ c n _ h
    rw [pIter] at h
    rw [Option.some.inj h]
    exact head_mem_subKeys s f n
  | succ d ih =>
    intro f hdf c n hcs h
    obtain ⟨f', rfl⟩ : ∃ f', f = f' + 1 := ⟨f - 1, by omega⟩
    rw [pIter_succ_last] at h
    cases hm : pIter s d c.callId with
    | none => rw [hm] at h; cases h
    | some m =>
      rw [hm] at h
      simp only [Option.some_bind] at h
      obtain ⟨em, hem, hemk, hemp⟩ := pf_entry h
      have hchild : em ∈ childEntries s n.callId :=
        mem_childEntries.mpr ⟨hem, hemp⟩
      have hrec : c.callId ∈ subKeys s f' em :=
        ih f' (by omega) c em hcs (by rw [hm, hemk])
      rw [subKeys, List.mem_cons]
      exact Or.inr (List.mem_flatMap.mpr ⟨em, hchild, hrec⟩)

theorem pairwise_childEntries {s : List CallInfo} (hnd : (keys s).Nodup)
    (k : String) :
    (childEntries s k).Pairwise (fun a b => a.callId ≠ b.callId) := by
  have h1 : s.Pairwise (fun a b => a.callId ≠ b.callId) :=
    (List.pairwise_map.mp hnd)
  exact h1.sublist (List.filter_sublist s)

theorem nodup_subKeys {s : List CallInfo} {rank : String → ℕ}
    (hnd : (keys s).Nodup)
    (hrank : ∀ k p, pf s k = some p → rank p < rank k) :
    ∀ (f : ℕ) (n : CallInfo), (subKeys s f n).Nodup := by
  intro f
  induction f with
  | zero => intro n; simp [subKeys]
  | succ f ih =>
    intro n
    rw [subKeys, List.nodup_cons]
    constructor
    · intro hmem
      rw [List.mem_flatMap] at hmem
      obtain ⟨c, hc, hxc⟩ := hmem
      obtain ⟨hcs, hcp⟩ := mem_childEntries.mp hc
      obtain ⟨d, _, hchain⟩ := mem_subKeys hnd f c n.callId hxc
      have hcycle : pIter s (d + 1) n.callId = some n.callId := by
        rw [pIter_succ_last, hchain]
        simpa [pf_of_mem hnd hcs] using hcp
      have := pIter_self hrank hcycle
      omega
    · rw [List.nodup_flatMap]
      refine ⟨fun c _ => ih c, ?_⟩
      have hpw := pairwise_childEntries hnd n.callId
      have hpw2 : (childEntries s n.callId).Pairwise
          (fun a b => a ∈ childEntries s n.callId ∧
            b ∈ childEntries s n.callId ∧ a.callId ≠ b.callId) := by
        rw [List.pairwise_iff_forall_sublist] at hpw ⊢
        intro a b hsub
        have hm := hsub.subset
        refine ⟨hm (by simp), hm (by simp), hpw hsub⟩
      refine hpw2.imp ?_
      rintro c1 c2 ⟨hc1, hc2, hne⟩
      intro x hx1 hx2
      obtain ⟨hc1s, hc1p⟩ := mem_childEntries.mp hc1
      obtain ⟨hc2s, hc2p⟩ := mem_childEntries.mp hc2
      obtain ⟨d1, _, hch1⟩ := mem_subKeys hnd f c1 x hx1
      obtain ⟨d2, _, hch2⟩ := mem_subKeys hnd f c2 x hx2
      exact hne (pIter_eq_of_pf_eq hrank hch1 hch2
        (by simpa [pf_of_mem hnd hc1s] using hc1p)
        (by simpa [pf_of_mem hnd hc2s] using hc2p))

theorem exists_root_chain {s : List CallInfo} {rank : String → ℕ}
    (hnd : (keys s).Nodup)
    (hres : ∀ k p, pf s k = some p → p ∈ keys s)
    (hrank : ∀ k p, pf s k = some p → rank p < rank k) :
    ∀ e ∈ s, ∃ er ∈ s, effParent er = none ∧
      ∃ d ≤ rank e.callId, pIter s d e.callId = some er.callId := by
  suffices H : ∀ R : ℕ, ∀ e ∈ s, rank e.callId < R → ∃ er ∈ s,
      effParent er = none ∧ ∃ d ≤ rank e.callId,
        pIter s d e.callId = some er.callId by
    intro e he
    exact H (rank e.callId + 1) e he (by omega)
  intro R
  induction R with
  | zero => intro e _ h; omega
  | succ R ih =>
    intro e he hR
    cases hp : pf s e.callId with
    | none =>
      refine ⟨e, he, ?_, 0, by omega, by simp [pIter]⟩
      rw [pf_of_mem hnd he] at hp
      exact hp
    | some p =>
      obtain ⟨ep, heps, hepk⟩ := mem_keys.mp (hres _ _ hp)
      have hrp : rank p < rank e.callId := hrank _ _ hp
      obtain ⟨er, hers, herp, d, hd, hchain⟩ :=
        ih ep heps (by rw [hepk]; omega)
      refine ⟨er, hers, herp, d + 1, by rw [hepk] at hd; omega, ?_⟩
      show (pf s e.callId).bind (pIter s d) = some er.callId
      rw [hp]
      simpa [hepk] using hchain

theorem forest_subKeys_perm {s : List CallInfo} {rank : String → ℕ}
    (hnd : (keys s).Nodup)
    (hres : ∀ k p, pf s k = some p → p ∈ keys s)
    (hrank : ∀ k p, pf s k = some p → rank p < rank k)
    (hbound : ∀ e ∈ s, rank e.callId < s.length) :
    ((s.filter (fun e => effParent e == none)).flatMap
        (subKeys s s.length)).Perm (keys s) := by
  have hroots : ∀ r ∈ s.filter (fun e => effParent e == none),
      r ∈ s ∧ effParent r = none := by
    intro r hr
    rw [List.mem_filter] at hr
    exact ⟨hr.1, by simpa using hr.2⟩
  have hnodupL : ((s.filter (fun e => effParent e == none)).flatMap
      (subKeys s s.length)).Nodup := by
    rw [List.nodup_flatMap]
    refine ⟨fun r _ => nodup_subKeys hnd hrank _ r, ?_⟩
    have hpw : (s.filter (fun e => effParent e == none)).Pairwise
        (fun a b => a.callId ≠ b.callId) :=
      (List.pairwise_map.mp hnd).sublist (List.filter_sublist s)
    have hpw2 : (s.filter (fun e => effParent e == none)).Pairwise
        (fun a b => a ∈ s.filter (fun e => effParent e == none) ∧
          b ∈ s.filter (fun e => effParent e == none) ∧
          a.callId ≠ b.callId) := by
      rw [List.pairwise_iff_forall_sublist] at hpw ⊢
      intro a b hsub
      have hm := hsub.subset
      refine ⟨hm (by simp), hm (by simp), hpw hsub⟩
    refine hpw2.imp ?_
    rintro r1 r2 ⟨hr1, hr2, hne⟩
    intro x hx1 hx2
    obtain ⟨hr1s, hr1p⟩ := hroots r1 hr1
    obtain ⟨hr2s, hr2p⟩ := hroots r2 hr2
    obtain ⟨d1, _, hch1⟩ := mem_subKeys hnd s.length r1 x hx1
    obtain ⟨d2, _, hch2⟩ := mem_subKeys hnd s.length r2 x hx2
    exact hne (pIter_eq_of_pf_none hch1 hch2
      (by rw [pf_of_mem hnd hr1s]; exact hr1p)
      (by rw [pf_of_mem hnd hr2s]; exact hr2p))
  rw [List.perm_ext_iff_of_nodup hnodupL hnd]
  intro x
  constructor
  · intro hx
    rw [List.mem_flatMap] at hx
    obtain ⟨r, hr, hxr⟩ := hx
    obtain ⟨hrs, _⟩ := hroots r hr
    rcases subKeys_mem_keys s.length r x hxr with rfl | hk
    · exact mem_keys.mpr ⟨r, hrs, rfl⟩
    · exact hk
  · intro hx
    obtain ⟨e, he, rfl⟩ := mem_keys.mp hx
    obtain ⟨er, hers, herp, d, _, hchain⟩ := exists_root_chain hnd hres hrank e he
    have hdN : d ≤ s.length := by
      have h1 := pIter_rank_le hrank d e.callId er.callId hchain
      have h2 := hbound e he
      omega
    rw [List.mem_flatMap]
    refine ⟨er, ?_, subKeys_of_pIter d s.length hdN e er he hchain⟩
    rw [List.mem_filter]
    exact ⟨hers, by simp [herp]⟩

theorem buildNode_info (s : List CallInfo) (f : ℕ) (n : CallInfo) :
    (buildNode s f n).info = n := by
  cases f <;> rfl

theorem buildFinal_callId (s : List CallInfo) (f : ℕ) (n : CallInfo) :
    (buildFinal s f n).info.callId = n.callId := by
  cases f <;> rfl

theorem buildFinal_duration (s : List CallInfo) (f : ℕ) (n : CallInfo) :
    (buildFinal s f n).info.duration = n.duration := by
  cases f <;> rfl

theorem buildFinal_startTime (s : List CallInfo) (f : ℕ) (n : CallInfo) :
    (buildFinal s f n).info.startTime = n.startTime := by
  cases f <;> rfl

theorem buildFinal_className (s : List CallInfo) (f : ℕ) (n : CallInfo) :
    (buildFinal s f n).info.className = n.className := by
  cases f <;> rfl

theorem buildFinal_methodName (s : List CallInfo) (f : ℕ) (n : CallInfo) :
    (buildFinal s f n).info.methodName = n.methodName := by
  cases f <;> rfl

theorem buildFinal_children_zero (s : List CallInfo) (n : CallInfo) :
    (buildFinal s 0 n).children = [] := rfl

theorem buildFinal_children_succ (s : List CallInfo) (f : ℕ) (n : CallInfo) :
    (buildFinal s (f + 1) n).children =
      (childEntries s n.callId).map (buildFinal s f) := rfl

theorem calcSelf_buildNode (s : List CallInfo) :
    ∀ (g f : ℕ) (n : CallInfo), f < g →
      calculateSelfTimes s g (buildNode s f n) = buildFinal s f n := by
  intro g
  induction g with
  | zero => intro f n h; omega
  | succ g ih =>
    intro f n h
    cases f with
    | zero =>
      show calculateSelfTimes s (g + 1) (.mk n []) = _
      simp [calculateSelfTimes, buildFinal]
    | succ f =>
      have h1 : ((childEntries s n.callId).map (buildNode s f)).map
            (fun u => u.info.duration) =
          (childEntries s n.callId).map (fun e => e.duration) := by
        rw [List.map_map]
        exact List.map_congr_left (fun e _ => by simp [buildNode_info])
      have h2 : ((childEntries s n.callId).map (buildNode s f)).map
            (calculateSelfTimes s g) =
          (childEntries s n.callId).map (buildFinal s f) := by
        rw [List.map_map]
        exact List.map_congr_left (fun e _ => by
          simp only [Function.comp_apply]
          exact ih f e (by omega))
      have hie : ((childEntries s n.callId).map (buildNode s f)).isEmpty =
          (childEntries s n.callId).isEmpty := by
        cases hcs : childEntries s n.callId <;> simp
      show calculateSelfTimes s (g + 1)
          (.mk n ((childEntries s n.callId).map (buildNode s f))) = _
      rw [calculateSelfTimes, h1, h2, hie]
      cases hemp : (childEntries s n.callId).isEmpty with
      | true => simp [List.isEmpty_iff.mp hemp, buildFinal]
      | false => simp [hemp, buildFinal]

theorem subtreeKeys_buildFinal (s : List CallInfo) :
    ∀ (g f : ℕ) (n : CallInfo), f < g →
      subtreeKeys g (buildFinal s f n) = subKeys s f n := by
  intro g
  induction g with
  | zero => intro f n h; omega
  | succ g ih =>
    intro f n h
    cases f with
    | zero =>
      simp [buildFinal, subtreeKeys, subKeys, CTree.info, CTree.children]
    | succ f =>
      rw [subtreeKeys, subKeys, buildFinal_children_succ, buildFinal_callId]
      congr 1
      rw [List.flatMap_def, List.map_map, ← List.flatMap_def]
      exact congrArg List.flatten
        (List.map_congr_left (fun e _ => ih f e (by omega)))

theorem buildCallTree_eq_buildFinal (s : List CallInfo) :
    buildCallTree s =
      (s.filter (fun e => effParent e == none)).map (buildFinal s s.length) := by
  unfold buildCallTree
  rw [List.map_map]
  exact List.map_congr_left
    (fun e _ => calcSelf_buildNode s (s.length + 1) s.length e (by omega))

theorem forestKeys_buildCallTree (s : List CallInfo) :
    forestKeys (s.length + 1) (buildCallTree s) =
      (s.filter (fun e => effParent e == none)).flatMap (subKeys s s.length) := by
  rw [buildCallTree_eq_buildFinal, forestKeys, List.flatMap_def, List.map_map,
    List.flatMap_def]
  exact congrArg List.flatten
    (List.map_congr_left
      (fun e _ => subtreeKeys_buildFinal s (s.length + 1) s.length e (by omega)))

theorem subnode_mem {s : List CallInfo} :
    ∀ t u : CTree, Subnode t u → ∀ (f : ℕ) (n : CallInfo),
      t = buildFinal s f n → n ∈ s → ∃ (g : ℕ) (c : CallInfo),
        u = buildFinal s g c ∧ c ∈ s := by
  intro t u h
  induction h with
  | refl t => intro f n ht hn; exact ⟨f, n, ht, hn⟩
  | @child t c u hc hsub ih =>
    intro f n ht hn
    subst ht
    cases f with
    | zero => simp [buildFinal_children_zero, CTree.children, buildFinal] at hc
    | succ f =>
      rw [buildFinal_children_succ] at hc
      obtain ⟨c0, hc0, rfl⟩ := List.mem_map.mp hc
      exact ih f c0 rfl (mem_childEntries.mp hc0).1

theorem subnode_shape {s : List CallInfo} (hnd : (keys s).Nodup) :
    ∀ t u : CTree, Subnode t u → ∀ (f : ℕ) (n : CallInfo),
      t = buildFinal s f n →
      ∃ (g d : ℕ) (c : CallInfo), u = buildFinal s g c ∧ d + g = f ∧
        pIter s d c.callId = some n.callId ∧ (c = n ∨ c ∈ s) := by
  intro t u h
  induction h with
  | refl t =>
    intro f n ht
    exact ⟨f, 0, n, ht, by omega, by simp [pIter], Or.inl rfl⟩
  | @child t c u hc hsub ih =>
    intro f n ht
    subst ht
    cases f with
    | zero => simp [buildFinal_children_zero, CTree.children, buildFinal] at hc
    | succ f =>
      rw [buildFinal_children_succ] at hc
      obtain ⟨c0, hc0, rfl⟩ := List.mem_map.mp hc
      obtain ⟨hc0s, hc0p⟩ := mem_childEntries.mp hc0
      obtain ⟨g, d, cc, hu, hsum, hchain, hmem⟩ := ih f c0 rfl
      refine ⟨g, d + 1, cc, hu, by omega, ?_, ?_⟩
      · rw [pIter_succ_last, hchain]
        simpa [pf_of_mem hnd hc0s] using hc0p
      · right
        rcases hmem with rfl | hcc
        · exact hc0s
        · exact hcc

theorem buildFinal_selfTime_spec {s : List CallInfo}
    (hpos : ∀ e ∈ s, 0 ≤ e.duration) :
    ∀ (f : ℕ) (c : CallInfo), c ∈ s →
      (buildFinal s f c).info.selfTime =
          max 0 ((buildFinal s f c).info.duration -
            (((buildFinal s f c).children.map (fun u => u.info.duration)).sum)) ∧
        0 ≤ (buildFinal s f c).info.selfTime ∧
        (buildFinal s f c).info.selfTime ≤ (buildFinal s f c).info.duration := by
  intro f c hc
  have hd : 0 ≤ c.duration := hpos c hc
  cases f with
  | zero =>
    have hbf : buildFinal s 0 c = .mk { c with selfTime := c.duration } [] := rfl
    rw [hbf]
    simp only [CTree.info_mk, CTree.children_mk, List.map_nil, List.sum_nil, sub_zero]
    exact ⟨(max_eq_right hd).symm, hd, le_refl _⟩
  | succ f =>
    cases hcs : childEntries s c.callId with
    | nil =>
      have hbf : buildFinal s (f + 1) c =
          .mk { c with selfTime := c.duration } [] := by
        simp [buildFinal, hcs]
      rw [hbf]
      simp only [CTree.info_mk, CTree.children_mk, List.map_nil, List.sum_nil, sub_zero]
      exact ⟨(max_eq_right hd).symm, hd, le_refl _⟩
    | cons c1 rest =>
      have hsum0 : 0 ≤ ((c1 :: rest).map (fun e => e.duration)).sum := by
        apply List.sum_nonneg
        intro x hx
        rw [List.mem_map] at hx
        obtain ⟨e, he, rfl⟩ := hx
        have hes : e ∈ s := by
          have := hcs ▸ he
          exact (mem_childEntries.mp this).1
        exact hpos e hes
      have hbf : buildFinal s (f + 1) c =
          .mk { c with selfTime := jsMax 0 (c.duration - ((c1 :: rest).map (fun e => e.duration)).sum) } ((c1 :: rest).map (buildFinal s f)) := by
        simp [buildFinal, hcs]
      have hch : (((c1 :: rest).map (buildFinal s f)).map
          (fun u => u.info.duration)) = (c1 :: rest).map (fun e => e.duration) := by
        rw [List.map_map]
        exact List.map_congr_left (fun e _ => by simp [buildFinal_duration])
      rw [hbf]
      simp only [CTree.info_mk, CTree.children_mk, hch]
      refine ⟨?_, ?_, ?_⟩
      · rw [jsMax_eq_max]
      · rw [jsMax_eq_max]
        exact le_max_left 0 _
      · rw [jsMax_eq_max]
        apply max_le hd
        linarith

theorem children_keys_spec {s : List CallInfo} {rank : String → ℕ}
    (hnd : (keys s).Nodup)
    (hrank : ∀ k p, pf s k = some p → rank p < rank k)
    (hbound : ∀ e ∈ s, rank e.callId < s.length) :
    ∀ r ∈ buildCallTree s, ∀ t, Subnode r t →
      t.children.map (fun u => u.info.callId) =
        (childEntries s t.info.callId).map (fun e => e.callId) := by
  intro r hr t hsub
  rw [buildCallTree_eq_buildFinal] at hr
  obtain ⟨e, he, rfl⟩ := List.mem_map.mp hr
  have hes : e ∈ s := (List.mem_filter.mp he).1
  obtain ⟨g, d, c, rfl, hsum, hchain, hmem⟩ :=
    subnode_shape hnd _ _ hsub s.length e rfl
  have hcs : c ∈ s := by
    rcases hmem with rfl | h
    · exact hes
    · exact h
  have hd : d ≤ rank c.callId := by
    have := pIter_rank_le hrank d c.callId e.callId hchain
    omega
  have hg : 1 ≤ g := by
    have := hbound c hcs
    omega
  obtain ⟨g', rfl⟩ : ∃ g', g = g' + 1 := ⟨g - 1, by omega⟩
  rw [buildFinal_children_succ, buildFinal_callId, List.map_map]
  exact List.map_congr_left (fun u _ => buildFinal_callId s g' u)

theorem hyps_of_all {s : List CallInfo} {rank : String → ℕ}
    (h1 : s.all (fun e =>
      match effParent e with
      | none => true
      | some p => (keys s).contains p) = true)
    (h2 : s.all (fun e =>
      match effParent e with
      | none => true
      | some p => decide (rank p < rank e.callId)) = true) :
    (∀ e ∈ s, ∀ p, effParent e = some p → p ∈ keys s) ∧
      (∀ e ∈ s, ∀ p, effParent e = some p → rank p < rank e.callId) := by
  constructor <;> intro e he p hp
  · have h := List.all_eq_true.mp h1 e he
    rw [hp] at h
    obtain ⟨x, hxm, hxb⟩ := List.contains_iff_exists_mem_beq.mp h
    rwa [beq_iff_eq.mp hxb]
  · have h := List.all_eq_true.mp h2 e he
    rw [hp] at h
    exact of_decide_eq_true h

theorem pf_lift {s : List CallInfo} {rank : String → ℕ}
    (hres : ∀ e ∈ s, ∀ p, effParent e = some p → p ∈ keys s)
    (hrank : ∀ e ∈ s, ∀ p, effParent e = some p → rank p < rank e.callId) :
    (∀ k p, pf s k = some p → p ∈ keys s) ∧
      (∀ k p, pf s k = some p → rank p < rank k) := by
  constructor <;> intro k p h <;>
    obtain ⟨e, he, hek, hep⟩ := pf_entry h
  · exact hres e he p hep
  · rw [← hek]
    exact hrank e he p hep

theorem filter_length_lt {α : Type} (p : α → Bool) (l : List α) (e : α)
    (he : e ∈ l) (hpe : p e = false) : (l.filter p).length < l.length := by
  induction l with
  | nil => cases he
  | cons a t ih =>
    rw [List.filter_cons]
    rcases List.mem_cons.mp he with rfl | ht
    · simp only [hpe, Bool.false_eq_true, if_false, List.length_cons]
      have := List.length_filter_le p t
      omega
    · have hlt := ih ht
      cases hpa : p a with
      | true => simp [hpa]; omega
      | false => simp [hpa]; omega

theorem mem_setCall {s : List CallInfo} {n x : CallInfo}
    (hx : x ∈ setCall s n) : x = n ∨ (x ∈ s ∧ x.callId ≠ n.callId) := by
  unfold setCall at hx
  cases hany : s.any (fun e => e.callId == n.callId) with
  | true =>
    rw [hany] at hx
    simp only [if_true] at hx
    rw [List.mem_map] at hx
    obtain ⟨e, he, hex⟩ := hx
    by_cases hc : (e.callId == n.callId) = true
    · rw [if_pos hc] at hex
      exact Or.inl hex.symm
    · rw [if_neg hc] at hex
      refine Or.inr ⟨hex ▸ he, ?_⟩
      rw [← hex]
      intro hEq
      exact hc (beq_iff_eq.mpr hEq)
  | false =>
    rw [hany] at hx
    simp only [Bool.false_eq_true, if_false] at hx
    rcases List.mem_append.mp hx with hxs | hxn
    · refine Or.inr ⟨hxs, ?_⟩
      have := List.any_eq_false.mp hany x hxs
      intro hEq
      exact this (beq_iff_eq.mpr hEq)
    · exact Or.inl (List.mem_singleton.mp hxn)

theorem find_map_replace (s : List CallInfo) (n : CallInfo)
    (h : s.any (fun e => e.callId == n.callId) = true) :
    (s.map (fun e => if e.callId == n.callId then n else e)).find?
      (fun e => e.callId == n.callId) = some n := by
  induction s with
  | nil => simp at h
  | cons a t ih =>
    rw [List.map_cons]
    by_cases ha : (a.callId == n.callId) = true
    · rw [if_pos ha]
      simp [List.find?_cons_of_pos]
    · rw [if_neg ha]
      rw [List.find?_cons_of_neg _ (by simpa using ha)]
      apply ih
      rw [List.any_cons] at h
      rcases Bool.or_eq_true_iff.mp h with h1 | h2
      · exact absurd h1 ha
      · exact h2

theorem lookupCall_setCall (s : List CallInfo) (n : CallInfo) :
    lookupCall (setCall s n) n.callId = some n := by
  unfold setCall lookupCall
  cases hany : s.any (fun e => e.callId == n.callId) with
  | true =>
    rw [if_pos rfl]
    exact find_map_replace s n hany
  | false =>
    rw [if_neg (by simp)]
    rw [List.find?_append]
    have hnone : s.find? (fun e => e.callId == n.callId) = none :=
      List.find?_eq_none.mpr (List.any_eq_false.mp hany)
    rw [hnone]
    simp

theorem any_key_iff (s : List CallInfo) (k : String) :
    (s.any (fun e => e.callId == k)) = true ↔ k ∈ keys s := by
  rw [List.any_eq_true]
  constructor
  · rintro ⟨e, he, hbeq⟩
    exact mem_keys.mpr ⟨e, he, beq_iff_eq.mp hbeq⟩
  · intro h
    obtain ⟨e, he, hek⟩ := mem_keys.mp h
    exact ⟨e, he, beq_iff_eq.mpr hek⟩

theorem setCall_length_of_key {s : List CallInfo} {n : CallInfo}
    (h : n.callId ∈ keys s) : (setCall s n).length = s.length := by
  unfold setCall
  rw [if_pos ((any_key_iff s n.callId).mpr h)]
  exact List.length_map s _

theorem setCall_length_of_fresh {s : List CallInfo} {n : CallInfo}
    (h : n.callId ∉ keys s) : (setCall s n).length = s.length + 1 := by
  unfold setCall
  rw [if_neg (fun hc => h ((any_key_iff s n.callId).mp hc))]
  simp

/-! ## Claim theorems -/

/-- C1, counterexample: a single stored event whose `parentCallId` does not
resolve is omitted from the forest returned by `buildCallTree` (the forest
covers 0 of the 1 stored entries), rather than becoming a root. -/
theorem c1_dangling_dropped :
    danglingStore.length = 1 ∧
      forestKeys (danglingStore.length + 1) (buildCallTree danglingStore) = [] :=
  ⟨rfl, rfl⟩

/-- C1, amended: for a store of N events with distinct callIds in which
every truthy `parentCallId` resolves to a stored event and the parent
relation is acyclic (witnessed by a rank function decreasing towards
parents), `buildTree()` covers exactly the N stored callIds across all
roots, with no duplicates and no drops, and the roots are exactly the
events with falsy `parentCallId`.  Events with a truthy non-resolving
`parentCallId` are omitted (see the counterexample), not made roots. -/
theorem c1_tree_completeness (s : List CallInfo) (rank : String → ℕ)
    (hnd : (keys s).Nodup)
    (hres : ∀ e ∈ s, ∀ p, effParent e = some p → p ∈ keys s)
    (hrank : ∀ e ∈ s, ∀ p, effParent e = some p → rank p < rank e.callId)
    (hbound : ∀ e ∈ s, rank e.callId < s.length) :
    (forestKeys (s.length + 1) (buildCallTree s)).Perm (keys s) ∧
      (forestKeys (s.length + 1) (buildCallTree s)).length = s.length ∧
      (forestKeys (s.length + 1) (buildCallTree s)).Nodup ∧
      (buildCallTree s).map (fun t => t.info.callId) =
        (s.filter (fun e => effParent e == none)).map (fun e => e.callId) := by
  obtain ⟨hres2, hrank2⟩ := pf_lift hres hrank
  have hperm : (forestKeys (s.length + 1) (buildCallTree s)).Perm (keys s) := by
    rw [forestKeys_buildCallTree]
    exact forest_subKeys_perm hnd hres2 hrank2 hbound
  refine ⟨hperm, ?_, ?_, ?_⟩
  · rw [hperm.length_eq]
    simp [keys]
  · exact hperm.nodup_iff.mpr hnd
  · rw [buildCallTree_eq_buildFinal, List.map_map]
    exact List.map_congr_left (fun e _ => buildFinal_callId s s.length e)

/-- C1, witness instantiation at a concrete two-event store. -/
theorem c1_tree_completeness_witness :
    (forestKeys (twoCallStore.length + 1)
        (buildCallTree twoCallStore)).Perm (keys twoCallStore) := by
  have h := @hyps_of_all twoCallStore
    (fun k => if k = "a" then 0 else 1) (by decide) (by decide)
  exact (c1_tree_completeness twoCallStore (fun k => if k = "a" then 0 else 1)
    (by decide) h.1 h.2 (by decide)).1

/-- C2: in the forest returned by `buildCallTree`, every node satisfies
`selfTime = max 0 (duration - Σ children.duration)` exactly, hence
`0 ≤ selfTime ≤ duration`, provided all stored durations are nonnegative
(the data model guarantees `durationMs ≥ 0`). -/
theorem c2_selfTime_spec (s : List CallInfo)
    (hpos : ∀ e ∈ s, 0 ≤ e.duration) :
    ∀ r ∈ buildCallTree s, ∀ t, Subnode r t →
      t.info.selfTime =
          max 0 (t.info.duration -
            ((t.children.map (fun u => u.info.duration)).sum)) ∧
        0 ≤ t.info.selfTime ∧ t.info.selfTime ≤ t.info.duration := by
  intro r hr t hsub
  rw [buildCallTree_eq_buildFinal] at hr
  obtain ⟨e, he, rfl⟩ := List.mem_map.mp hr
  obtain ⟨g, c, rfl, hcs⟩ :=
    subnode_mem _ _ hsub s.length e rfl (List.mem_filter.mp he).1
  exact buildFinal_selfTime_spec hpos g c hcs

/-- C2, witness instantiation at the root of a concrete two-event store
(root `a` of 100ms with one 40ms child). -/
theorem c2_selfTime_spec_witness :
    (buildCallTree twoCallStore).head!.info.selfTime =
      max 0 ((buildCallTree twoCallStore).head!.info.duration -
        (((buildCallTree twoCallStore).head!.children.map
            (fun u => u.info.duration)).sum)) := by
  have hpos : ∀ e ∈ twoCallStore, 0 ≤ e.duration := by decide
  have hne : buildCallTree twoCallStore ≠ [] :=
    List.length_pos.mp (by decide)
  exact (c2_selfTime_spec twoCallStore hpos _ (List.head!_mem_self hne) _
    (Subnode.refl _)).1

/-- C3, counterexample: with capacity 2, inserting 3 events with increasing
`startedAtMs`, all within the retention window, leaves 3 stored events and
a 3-node forest — the oldest is not evicted, contradicting the claimed
scenario of exactly 2 remaining nodes. -/
theorem c3_capacity_not_enforced :
    capacity3Store.length = 3 ∧
      forestKeys (capacity3Store.length + 1) (buildCallTree capacity3Store) =
        ["a", "b", "c"] ∧
      2 < capacity3Store.length :=
  ⟨rfl, rfl, by decide⟩

/-- C3, amended: when the store is at the capacity bound, `addCall` first
runs a cleanup pass that evicts exactly the events whose `startedAtMs` is
older than `now` minus the retention window — not the oldest event per se;
in particular, if every stored event is within the retention window,
nothing is evicted and a fresh insert grows the store beyond capacity. -/
theorem c3_cleanup_by_retention (maxCalls : ℕ) (thr now : ℚ)
    (m : PerformanceMessageV2) (s : List CallInfo)
    (hcap : maxCalls ≤ s.length) :
    addCall maxCalls thr now m s = setCall (cleanup thr now s) (callNodeOf m) ∧
      (∀ e, e ∈ cleanup thr now s ↔ e ∈ s ∧ now - thr ≤ e.startTime) ∧
      ((∀ e ∈ s, now - thr ≤ e.startTime) → m.callId ∉ keys s →
        (addCall maxCalls thr now m s).length = s.length + 1) := by
  have haddc : addCall maxCalls thr now m s =
      setCall (cleanup thr now s) (callNodeOf m) := by
    unfold addCall
    rw [if_pos hcap]
  refine ⟨haddc, ?_, ?_⟩
  · intro e
    simp [cleanup, List.mem_filter, not_lt]
  · intro hall hnew
    have hcl : cleanup thr now s = s := by
      unfold cleanup
      apply List.filter_eq_self.mpr
      intro e he
      simpa [not_lt] using hall e he
    rw [haddc, hcl, setCall_length_of_fresh (by simpa [callNodeOf] using hnew)]

/-- C3, witness instantiation: capacity 2, two fresh stored events, a third
fresh insert grows the store to 3. -/
theorem c3_cleanup_by_retention_witness :
    2 ≤ twoFreshStore.length ∧
      (addCall 2 CLEANUP_THRESHOLD_MS 2 (demoMsg "c" none 1 2)
        twoFreshStore).length = twoFreshStore.length + 1 := by
  have h := c3_cleanup_by_retention 2 CLEANUP_THRESHOLD_MS 2
    (demoMsg "c" none 1 2) twoFreshStore (by decide)
  exact ⟨by decide, h.2.2 (by decide) (by decide)⟩

/-- C4, counterexample: children are appended in store insertion order, not
sorted by `startedAtMs`: inserting child `b` (startTime 10) before child `a`
(startTime 5) yields the children sequence `[b, a]` with startTimes
`[10, 5]`, which is not ascending. -/
theorem c4_children_not_sorted :
    (buildCallTree siblingStore).map
        (fun t => t.children.map (fun c => (c.info.callId, c.info.startTime))) =
      [[("b", 10), ("a", 5)]] ∧
      ¬ ((10 : ℚ) ≤ 5) :=
  ⟨rfl, by decide⟩

/-- C4, amended: in every tree returned by `buildTree()` (over a store with
distinct callIds and an acyclic parent relation), each node's children
sequence lists exactly the stored events whose `parentCallId` resolves to
that node, in store insertion (`Map` iteration) order — which coincides
with `startedAtMs` order only when events arrive in that order. -/
theorem c4_children_insertion_order (s : List CallInfo) (rank : String → ℕ)
    (hnd : (keys s).Nodup)
    (hrank : ∀ e ∈ s, ∀ p, effParent e = some p → rank p < rank e.callId)
    (hbound : ∀ e ∈ s, rank e.callId < s.length) :
    ∀ r ∈ buildCallTree s, ∀ t, Subnode r t →
      t.children.map (fun u => u.info.callId) =
        (childEntries s t.info.callId).map (fun e => e.callId) := by
  have hrank2 : ∀ k p, pf s k = some p → rank p < rank k := by
    intro k p h
    obtain ⟨e, he, hek, hep⟩ := pf_entry h
    rw [← hek]
    exact hrank e he p hep
  exact children_keys_spec hnd hrank2 hbound

/-- C4, witness instantiation at the root of the sibling store. -/
theorem c4_children_insertion_order_witness :
    (buildCallTree siblingStore).head!.children.map (fun u => u.info.callId) =
      (childEntries siblingStore
        (buildCallTree siblingStore).head!.info.callId).map
          (fun e => e.callId) := by
  have h := @hyps_of_all siblingStore
    (fun k => if k = "p" then 0 else 1) (by decide) (by decide)
  have hne : buildCallTree siblingStore ≠ [] :=
    List.length_pos.mp (by decide)
  exact c4_children_insertion_order siblingStore
    (fun k => if k = "p" then 0 else 1) (by decide) h.2 (by decide) _
    (List.head!_mem_self hne) _ (Subnode.refl _)

/-- C9, counterexample: after a duplicate insert whose later event has a
non-resolving `parentCallId`, the store holds one event but `buildCallTree`
returns no node at all for that callId — not "exactly one node". -/
theorem c9_duplicate_node_dropped :
    duplicateStore.length = 1 ∧
      forestKeys (duplicateStore.length + 1) (buildCallTree duplicateStore) = [] :=
  ⟨rfl, rfl⟩

/-- C9, amended: `callId` is unique within the store: a duplicate insert
overwrites (last-write-wins), the store does not grow, and the stored entry
carries the later event's fields; every subsequent `buildTree()` over a
resolving acyclic store contains exactly one node for that callId, and any
node carrying that callId carries the later event's fields. -/
theorem c9_last_write_wins (maxCalls : ℕ) (thr now : ℚ)
    (m : PerformanceMessageV2) (s : List CallInfo) (rank : String → ℕ)
    (hdup : m.callId ∈ keys s)
    (hnd : (keys (addCall maxCalls thr now m s)).Nodup)
    (hres : ∀ e ∈ addCall maxCalls thr now m s, ∀ p, effParent e = some p →
      p ∈ keys (addCall maxCalls thr now m s))
    (hrank : ∀ e ∈ addCall maxCalls thr now m s, ∀ p, effParent e = some p →
      rank p < rank e.callId)
    (hbound : ∀ e ∈ addCall maxCalls thr now m s,
      rank e.callId < (addCall maxCalls thr now m s).length) :
    (addCall maxCalls thr now m s).length ≤ s.length ∧
      lookupCall (addCall maxCalls thr now m s) m.callId =
        some (callNodeOf m) ∧
      (forestKeys ((addCall maxCalls thr now m s).length + 1)
          (buildCallTree (addCall maxCalls thr now m s))).count m.callId = 1 ∧
      (∀ r ∈ buildCallTree (addCall maxCalls thr now m s), ∀ t, Subnode r t →
        t.info.callId = m.callId →
          t.info.duration = m.duration ∧ t.info.startTime = m.timestamp ∧
            t.info.className = m.cls ∧ t.info.methodName = m.method) := by
  obtain ⟨e, he, hek⟩ := mem_keys.mp hdup
  have hnodeid : (callNodeOf m).callId = m.callId := rfl
  have hlen : (addCall maxCalls thr now m s).length ≤ s.length := by
    unfold addCall
    by_cases hcap : maxCalls ≤ s.length
    · rw [if_pos hcap]
      by_cases hkey : (callNodeOf m).callId ∈ keys (cleanup thr now s)
      · rw [setCall_length_of_key hkey]
        exact List.length_filter_le _ s
      · rw [setCall_length_of_fresh hkey]
        have hnotin : e ∉ cleanup thr now s := by
          intro hin
          exact hkey (mem_keys.mpr ⟨e, hin, by rw [hek, hnodeid]⟩)
        have hpe : (!decide (e.startTime < now - thr)) = false := by
          cases hb : (!decide (e.startTime < now - thr)) with
          | false => rfl
          | true => exact absurd (List.mem_filter.mpr ⟨he, hb⟩) hnotin
        have := filter_length_lt
          (fun e => !decide (e.startTime < now - thr)) s e he hpe
        unfold cleanup
        omega
    · rw [if_neg hcap]
      have hkey : (callNodeOf m).callId ∈ keys s := by rw [hnodeid]; exact hdup
      rw [setCall_length_of_key hkey]
  have hlook : lookupCall (addCall maxCalls thr now m s) m.callId =
      some (callNodeOf m) := by
    unfold addCall
    rw [← hnodeid]
    exact lookupCall_setCall _ (callNodeOf m)
  have hmemk : m.callId ∈ keys (addCall maxCalls thr now m s) := by
    unfold lookupCall at hlook
    have hm := List.mem_of_find?_eq_some hlook
    exact mem_keys.mpr ⟨callNodeOf m, hm, rfl⟩
  obtain ⟨hres2, hrank2⟩ := pf_lift hres hrank
  have hperm := forest_subKeys_perm hnd hres2 hrank2 hbound
  refine ⟨hlen, hlook, ?_, ?_⟩
  · rw [forestKeys_buildCallTree]
    rw [hperm.count_eq]
    exact List.count_eq_one_of_mem hnd hmemk
  · intro r hr t hsub hkey
    rw [buildCallTree_eq_buildFinal] at hr
    obtain ⟨e0, he0, rfl⟩ := List.mem_map.mp hr
    obtain ⟨g, c, rfl, hcs⟩ :=
      subnode_mem _ _ hsub _ e0 rfl (List.mem_filter.mp he0).1
    rw [buildFinal_callId] at hkey
    have hc : c = callNodeOf m := by
      unfold addCall at hcs
      rcases mem_setCall hcs with rfl | ⟨_, hne⟩
      · rfl
      · exact absurd (by rw [hkey, hnodeid]) hne
    subst hc
    exact ⟨by rw [buildFinal_duration]; rfl,
      by rw [buildFinal_startTime]; rfl,
      by rw [buildFinal_className]; rfl,
      by rw [buildFinal_methodName]; rfl⟩

/-- C9, witness instantiation: a duplicate root insert over a one-event
store. -/
theorem c9_last_write_wins_witness :
    (addCall 10 CLEANUP_THRESHOLD_MS 1 dupRootMsg rootOnlyStore).length ≤
        rootOnlyStore.length ∧
      lookupCall (addCall 10 CLEANUP_THRESHOLD_MS 1 dupRootMsg rootOnlyStore)
        dupRootMsg.callId = some (callNodeOf dupRootMsg) := by
  have h := @hyps_of_all
    (addCall 10 CLEANUP_THRESHOLD_MS 1 dupRootMsg rootOnlyStore)
    (fun _ => 0) (by decide) (by decide)
  have hc := c9_last_write_wins 10 CLEANUP_THRESHOLD_MS 1 dupRootMsg
    rootOnlyStore (fun _ => 0) (by decide) (by decide) h.1 h.2 (by decide)
  exact ⟨hc.1, hc.2.1⟩

theorem find_map_replace_raw (s : List RawCallInfo) (n : RawCallInfo)
    (h : s.any (fun e => e.callId == n.callId) = true) :
    (s.map (fun e => if e.callId == n.callId then n else e)).find?
      (fun e => e.callId == n.callId) = some n := by
  induction s with
  | nil => simp at h
  | cons a t ih =>
    rw [List.map_cons]
    by_cases ha : (a.callId == n.callId) = true
    · rw [if_pos ha]
      simp [List.find?_cons_of_pos]
    · rw [if_neg ha]
      rw [List.find?_cons_of_neg _ (by simpa using ha)]
      apply ih
      rw [List.any_cons] at h
      rcases Bool.or_eq_true_iff.mp h with h1 | h2
      · exact absurd h1 ha
      · exact h2

theorem find_setRawCall (s : List RawCallInfo) (n : RawCallInfo) :
    (setRawCall s n).find? (fun e => e.callId == n.callId) = some n := by
  unfold setRawCall
  cases hany : s.any (fun e => e.callId == n.callId) with
  | true =>
    rw [if_pos rfl]
    exact find_map_replace_raw s n hany
  | false =>
    rw [if_neg (by simp)]
    rw [List.find?_append]
    have hnone : s.find? (fun e => e.callId == n.callId) = none :=
      List.find?_eq_none.mpr (List.any_eq_false.mp hany)
    rw [hnone]
    simp

/-- C7, counterexample: a record missing the required `method`, `duration`,
`timestamp` and `stackDepth` fields is not rejected: `addCall` stores it
as-is, changing the store (the claim demands rejection before anything is
stored, leaving the store unchanged). -/
theorem c7_malformed_record_stored :
    addCallRaw MAX_CALLS CLEANUP_THRESHOLD_MS 0 badRawMessage [] =
        [rawNodeOf badRawMessage] ∧
      (rawNodeOf badRawMessage).duration = none ∧
      (rawNodeOf badRawMessage).methodName = none ∧
      (rawNodeOf badRawMessage).endTime = none :=
  ⟨rfl, rfl, rfl, rfl⟩

/-- C7, amended: `addCall` never throws and performs no input-shape
validation at all: every incoming record, however malformed (any required
field may be missing), is stored under its possibly-undefined `callId`,
with missing fields propagated as `undefined` into the stored node. -/
theorem c7_no_boundary_validation (maxCalls : ℕ) (thr now : ℚ)
    (m : RawPerformanceMessage) (s : List RawCallInfo) :
    (addCallRaw maxCalls thr now m s).find?
      (fun e => e.callId == m.callId) = some (rawNodeOf m) := by
  unfold addCallRaw
  have h := find_setRawCall
    (if maxCalls ≤ s.length then cleanupRaw thr now s else s) (rawNodeOf m)
  simpa [rawNodeOf] using h

/-- C8: evaluation at the failing input.  In the src/src/extension.ts
handler, the first observation for a fresh key (duration 5) creates the
aggregate with `executions = []` and `averageDuration = 0` — the duration
is never appended, so the mean is 0, not 5 as the claim requires
(`lastDuration` is 5 as claimed).  The part_000 copy of the same handler
runs the update block unconditionally and produces the mean the claim
describes. -/
theorem c8_first_observation_dropped :
    updateStoreExt [] "AppComponent" "render" 5 (some "app.ts") (some 3) none =
        [("AppComponent.render", c8FreshAggregate)] ∧
      c8FreshAggregate.executions = [] ∧
      c8FreshAggregate.averageDuration = 0 ∧
      c8FreshAggregate.averageDuration ≠ 5 ∧
      c8FreshAggregate.lastDuration = 5 ∧
      updateStoreV0 [] "AppComponent" "render" 5 (some "app.ts") (some 3) none =
        [("AppComponent.render", c8UpdatedAggregate)] ∧
      c8UpdatedAggregate.executions = [5] ∧
      c8UpdatedAggregate.averageDuration = 5 := by
  refine ⟨rfl, rfl, rfl, by decide, rfl, rfl, rfl, ?_⟩
  norm_num [c8UpdatedAggregate, c8FreshAggregate, updatePerfData, freshPerfData]

theorem updateStoreV0_first (cls method : String) (d : ℚ)
    (fp : Option String) (ln : Option ℚ) :
    updateStoreV0 [] cls method d fp ln none =
      [(cls ++ "." ++ method,
        updatePerfData (freshPerfData cls method fp ln d none) d none)] := by
  simp [updateStoreV0, mapSet]

theorem updateStoreV0_step (cls method : String) (d : ℚ)
    (fp : Option String) (ln : Option ℚ) (pd : MethodPerformanceData) :
    updateStoreV0 [(cls ++ "." ++ method, pd)] cls method d fp ln none =
      [(cls ++ "." ++ method, updatePerfData pd d none)] := by
  simp [updateStoreV0, mapSet]

theorem foldV0_single (cls method : String) :
    ∀ (ds : List ℚ) (pd : MethodPerformanceData),
      ds.foldl (fun st x => updateStoreV0 st cls method x none none none)
          [(cls ++ "." ++ method, pd)] =
        [(cls ++ "." ++ method,
          ds.foldl (fun a x => updatePerfData a x none) pd)] := by
  intro ds
  induction ds with
  | nil => intro pd; rfl
  | cons x rest ih =>
    intro pd
    rw [List.foldl_cons, updateStoreV0_step, List.foldl_cons]
    exact ih (updatePerfData pd x none)

theorem foldUpdate_executions :
    ∀ (ds : List ℚ) (pd : MethodPerformanceData),
      (ds.foldl (fun a x => updatePerfData a x none) pd).executions =
        pd.executions ++ ds := by
  intro ds
  induction ds with
  | nil => intro pd; simp
  | cons x rest ih =>
    intro pd
    rw [List.foldl_cons, ih]
    simp [updatePerfData]

theorem foldUpdate_lastDuration :
    ∀ (ds : List ℚ) (pd : MethodPerformanceData),
      (ds.foldl (fun a x => updatePerfData a x none) pd).lastDuration =
        ds.getLastD pd.lastDuration := by
  intro ds
  induction ds with
  | nil => intro pd; simp
  | cons x rest ih =>
    intro pd
    rw [List.foldl_cons, ih, List.getLastD_cons]
    rfl

theorem foldUpdate_average :
    ∀ (ds : List ℚ) (pd : MethodPerformanceData),
      pd.averageDuration = pd.executions.sum / pd.executions.length →
      (ds.foldl (fun a x => updatePerfData a x none) pd).averageDuration =
        (ds.foldl (fun a x => updatePerfData a x none) pd).executions.sum /
          (ds.foldl (fun a x => updatePerfData a x none) pd).executions.length := by
  intro ds
  induction ds with
  | nil => intro pd hpd; simpa using hpd
  | cons x rest ih =>
    intro pd _
    rw [List.foldl_cons]
    exact ih (updatePerfData pd x none) rfl

/-- Supporting fact for C8: the part_000 copy of the handler maintains the
claimed aggregate invariant: after any nonempty sequence of observations
for one key, the stored aggregate's `executions` is exactly the observed
sequence, `averageDuration` is its arithmetic mean (including the first
observation), and `lastDuration` is the most recent observation. -/
theorem updateStoreV0_mean_correct (cls method : String) (d : ℚ) (ds : List ℚ) :
    ∃ pd : MethodPerformanceData,
      ds.foldl (fun st x => updateStoreV0 st cls method x none none none)
          (updateStoreV0 [] cls method d none none none) =
        [(cls ++ "." ++ method, pd)] ∧
      pd.executions = d :: ds ∧
      pd.averageDuration = (d :: ds).sum / (d :: ds).length ∧
      pd.lastDuration = ds.getLastD d := by
  rw [updateStoreV0_first, foldV0_single]
  refine ⟨_, rfl, ?_, ?_, ?_⟩
  · rw [foldUpdate_executions]
    simp [updatePerfData, freshPerfData]
  · rw [foldUpdate_average _ _ rfl, foldUpdate_executions]
    have hex : (updatePerfData (freshPerfData cls method none none d none)
        d none).executions = [d] := rfl
    rw [hex]
    simp
  · rw [foldUpdate_lastDuration]
    have hld : (updatePerfData (freshPerfData cls method none none d none)
        d none).lastDuration = d := rfl
    rw [hld]

theorem jsToNumList_map (qs : List ℚ) :
    jsToNumList (qs.map (fun q => JsVal.num q)) = some qs := by
  induction qs with
  | nil => rfl
  | cons q rest ih => simp [jsToNumList, ih]

theorem jsToMethodData_roundtrip (md : MethodPerformanceData) :
    jsToMethodData (methodDataToJs md) = some md := by
  rcases md with ⟨cn, mn, fp, ln, ex, avg, last, cdc⟩
  rcases fp with _ | fp <;> rcases ln with _ | ln <;> rcases cdc with _ | cdc <;>
    simp [jsToMethodData, methodDataToJs, lookupJs, List.find?, optStrField,
      optNumField, jsToNumList_map]

theorem ctreeList_roundtrip_of (cs : List CTree)
    (h : ∀ c ∈ cs, jsToCtree (ctreeToJs c) = some c) :
    jsToCtreeList (ctreeListToJs cs) = some cs := by
  induction cs with
  | nil => rfl
  | cons t ts ih =>
    have ht := h t (List.mem_cons_self t ts)
    have hts := ih (fun c hc => h c (List.mem_cons_of_mem t hc))
    simp [ctreeListToJs, jsToCtreeList, ht, hts]

theorem jsToCtree_roundtrip (t : CTree) : jsToCtree (ctreeToJs t) = some t := by
  have H : ∀ (k : ℕ) (u : CTree), sizeOf u ≤ k →
      jsToCtree (ctreeToJs u) = some u := by
    intro k
    induction k with
    | zero =>
      intro u hu
      obtain ⟨i, cs⟩ := u
      simp at hu
    | succ k ih =>
      intro u hu
      obtain ⟨i, cs⟩ := u
      have hmk : sizeOf (CTree.mk i cs) = 1 + sizeOf i + sizeOf cs := by simp
      have hcs : ∀ c ∈ cs, jsToCtree (ctreeToJs c) = some c := by
        intro c hc
        apply ih
        have h1 := List.sizeOf_lt_of_mem hc
        omega
      have hlist := ctreeList_roundtrip_of cs hcs
      rcases i with ⟨cid, cn, mn, du, st, et, pc, sf, fp, ln⟩
      rcases pc with _ | pc <;> rcases fp with _ | fp <;> rcases ln with _ | ln <;>
        simp [jsToCtree, ctreeToJs, decodeChildrenField, lookupJs, List.find?,
          optStrField, optNumField, hlist]
  exact H (sizeOf t) t (le_refl _)

theorem jsToSnapshot_roundtrip (s : PerformanceSnapshot) :
    jsToSnapshot (snapshotToJs s) = some s := by
  rcases s with ⟨sid, nm, ts, gb, gc, ms, cs, meta⟩
  have hms : jsToMethodsEntries (ms.map (fun e => (e.1, methodDataToJs e.2))) =
      some ms := by
    induction ms with
    | nil => rfl
    | cons m rest ih => simp [jsToMethodsEntries, jsToMethodData_roundtrip, ih]
  have hcs : jsToCtreeList (ctreeListToJs cs) = some cs :=
    ctreeList_roundtrip_of cs (fun c _ => jsToCtree_roundtrip c)
  rcases meta with ⟨tm, tc, cst, cet⟩
  rcases gb with _ | gb <;> rcases gc with _ | gc <;>
    simp [jsToSnapshot, snapshotToJs, lookupJs, List.find?, optStrField,
      jsToMeta, metaToJs, hms, hcs]

/-- C5: the codec round-trip law.  `saveSnapshot` serializes the snapshot
document (snapshot spread with `methods` as its entries object) and
compresses; `loadSnapshot` decompresses, parses, and rebuilds the methods
map.  Assuming the byte serializer/compressor pair is mutually inverse (the
claim's hypothesis, covering `JSON.stringify`/`JSON.parse` plus
`compressSnapshotData`/`decompressSnapshotData`), decoding the bytes of
`saveSnapshot` restores the snapshot exactly, field for field, including
the methods map entries, numeric values and metadata. -/
theorem c5_snapshot_roundtrip {β : Type} (compress : JsVal → β)
    (decompress : β → Option JsVal)
    (hinv : ∀ v, decompress (compress v) = some v)
    (s : PerformanceSnapshot) (_hkeys : (s.methods.map Prod.fst).Nodup) :
    loadSnapshotBytes decompress (saveSnapshotBytes compress s) = some s := by
  unfold loadSnapshotBytes saveSnapshotBytes
  rw [hinv]
  simpa using jsToSnapshot_roundtrip s

/-- C5, witness instantiation at a concrete snapshot with the identity
serializer. -/
theorem c5_snapshot_roundtrip_witness :
    loadSnapshotBytes (fun v => some v)
      (saveSnapshotBytes (fun v => v) demoSnapshot) = some demoSnapshot :=
  c5_snapshot_roundtrip (fun v => v) (fun v => some v) (fun _ => rfl)
    demoSnapshot (by decide)

theorem leadMatch_self_append :
    ∀ x suf : List Char, leadMatch x (x ++ suf) = true := by
  intro x
  induction x with
  | nil => intro suf; rfl
  | cons c cs ih => intro suf; simp [leadMatch, ih]

theorem occursIn_append_self :
    ∀ (pre x suf : List Char), occursIn x (pre ++ (x ++ suf)) = true := by
  intro pre
  induction pre with
  | nil =>
    intro x suf
    cases x with
    | nil => cases suf <;> simp [occursIn, leadMatch]
    | cons c cs => simp [occursIn, leadMatch, leadMatch_self_append]
  | cons d ds ih =>
    intro x suf
    simp [occursIn, ih]

theorem strContains_fileName_self (f : SnapFile) :
    strContains (fileNameOf f) (idOf f) = true := by
  unfold strContains fileNameOf idOf
  have hsplit : ("snapshot_" ++ toString f.ts ++ "_" ++ f.name ++
      ".json.gz").toList =
      "snapshot_".toList ++ ((toString f.ts).toList ++
        ("_".toList ++ (f.name.toList ++ ".json.gz".toList))) := by
    simp [String.toList, String.data_append, List.append_assoc]
  rw [hsplit, ← List.append_assoc ((toString f.ts).toList)]
  rw [List.append_assoc ((toString f.ts).toList)]
  exact occursIn_append_self _ _ _

theorem eraseP_eq_filter_of_unique {α : Type} (p : α → Bool) (l : List α)
    (f : α) (hf : f ∈ l) (hpf : p f = true)
    (huniq : ∀ a ∈ l, p a = true → a = f) (hnd : l.Nodup) :
    l.eraseP p = l.filter (fun a => !p a) := by
  induction l with
  | nil => cases hf
  | cons a t ih =>
    obtain ⟨hnotin, hndt⟩ := List.nodup_cons.mp hnd
    rcases List.mem_cons.mp hf with rfl | hft
    · rw [List.eraseP_cons_of_pos hpf, List.filter_cons]
      rw [show (!p f) = false by rw [hpf]; rfl]
      simp only [Bool.false_eq_true, if_false]
      symm
      apply List.filter_eq_self.mpr
      intro x hx
      cases hb : p x with
      | false => rfl
      | true => exact absurd (huniq x (List.mem_cons_of_mem f hx) hb ▸ hx) hnotin
    · have hpa : p a = false := by
        cases hb : p a with
        | false => rfl
        | true =>
          have := huniq a (List.mem_cons_self a t) hb
          subst this
          exact absurd hft hnotin
      rw [List.eraseP_cons_of_neg (by simp [hpa]), List.filter_cons]
      rw [show (!p a) = true by rw [hpa]; rfl]
      simp only [if_true]
      congr 1
      exact ih hft (fun x hx hb => huniq x (List.mem_cons_of_mem a hx) hb) hndt

theorem runDeletes_filter :
    ∀ (fs store : List SnapFile), fs.Nodup → store.Nodup →
      (∀ f ∈ fs, f ∈ store) →
      (∀ f ∈ fs, ∀ g ∈ store,
        strContains (fileNameOf g) (idOf f) = true → g = f) →
      runDeletes (fs.map idOf) store =
        store.filter (fun g => !decide (g ∈ fs)) := by
  intro fs
  induction fs with
  | nil =>
    intro store _ _ _ _
    rw [List.map_nil]
    show store = _
    symm
    apply List.filter_eq_self.mpr
    intro a _
    simp
  | cons f rest ih =>
    intro store hfs hst hsub huniq
    obtain ⟨hfnotin, hrestnd⟩ := List.nodup_cons.mp hfs
    have hfst : f ∈ store := hsub f (List.mem_cons_self f rest)
    have hany : store.any
        (fun g => strContains (fileNameOf g) (idOf f)) = true :=
      List.any_eq_true.mpr ⟨f, hfst, strContains_fileName_self f⟩
    rw [List.map_cons]
    show runDeletes (idOf f :: rest.map idOf) store = _
    rw [runDeletes]
    unfold deleteByIdOpt
    rw [if_pos hany]
    have herase : store.eraseP (fun g => strContains (fileNameOf g) (idOf f)) =
        store.filter (fun g => !strContains (fileNameOf g) (idOf f)) :=
      eraseP_eq_filter_of_unique _ store f hfst (strContains_fileName_self f)
        (fun a ha hb => huniq f (List.mem_cons_self f rest) a ha hb) hst
    rw [herase]
    show runDeletes (rest.map idOf)
      (store.filter (fun g => !strContains (fileNameOf g) (idOf f))) = _
    have hih := ih (store.filter (fun g => !strContains (fileNameOf g) (idOf f)))
      hrestnd (hst.filter _)
      (by
        intro g hg
        have hgst : g ∈ store := hsub g (List.mem_cons_of_mem f hg)
        apply List.mem_filter.mpr
        refine ⟨hgst, ?_⟩
        cases hb : strContains (fileNameOf g) (idOf f) with
        | false => rfl
        | true =>
          have := huniq f (List.mem_cons_self f rest) g hgst hb
          subst this
          exact absurd hg hfnotin)
      (by
        intro f2 hf2 g hg hb
        exact huniq f2 (List.mem_cons_of_mem f hf2) g
          (List.mem_filter.mp hg).1 hb)
    rw [hih, List.filter_filter]
    apply List.filter_congr
    intro g hg
    by_cases hgf : g = f
    · subst hgf
      simp [strContains_fileName_self g]
    · have hpg : strContains (fileNameOf g) (idOf f) = false := by
        cases hb : strContains (fileNameOf g) (idOf f) with
        | false => rfl
        | true => exact absurd (huniq f (List.mem_cons_self f rest) g hg hb) hgf
      simp [hpg, hgf]

theorem goodStore_nodup {store : List SnapFile} (h : GoodStore store) :
    store.Nodup :=
  (List.Nodup.of_map _) h.1

theorem cleanupOldSnapshots_filter (now : Int) (store : List SnapFile)
    (h : GoodStore store) :
    cleanupOldSnapshots now store =
      store.filter (fun f => !decide (f.ts < now - MAX_AGE_MS)) := by
  have hperm : (listSnapshotsSorted store).Perm store :=
    List.perm_insertionSort _ store
  have hsortnd : (listSnapshotsSorted store).Nodup :=
    hperm.nodup_iff.mpr (goodStore_nodup h)
  unfold cleanupOldSnapshots
  rw [runDeletes_filter _ store (hsortnd.filter _) (goodStore_nodup h)
    (fun f hf => hperm.mem_iff.mp (List.mem_filter.mp hf).1)
    (fun f hf g hg hb =>
      (h.2 f (hperm.mem_iff.mp (List.mem_filter.mp hf).1) g hg hb).symm)]
  apply List.filter_congr
  intro g hg
  have hmem : g ∈ (listSnapshotsSorted store).filter
        (fun f => decide (f.ts < now - MAX_AGE_MS)) ↔
      g.ts < now - MAX_AGE_MS := by
    rw [List.mem_filter]
    constructor
    · intro hx
      exact of_decide_eq_true hx.2
    · intro hx
      exact ⟨hperm.mem_iff.mpr hg, decide_eq_true hx⟩
  rw [show decide (g ∈ (listSnapshotsSorted store).filter
      (fun f => decide (f.ts < now - MAX_AGE_MS))) =
      decide (g.ts < now - MAX_AGE_MS) from decide_eq_decide.mpr hmem]

theorem enforceSnapshotLimit_length (maxSnaps : ℕ) (store : List SnapFile)
    (h : GoodStore store) :
    (enforceSnapshotLimit maxSnaps store).length = min store.length maxSnaps := by
  have hperm : (listSnapshotsSorted store).Perm store :=
    List.perm_insertionSort _ store
  have hsortnd : (listSnapshotsSorted store).Nodup :=
    hperm.nodup_iff.mpr (goodStore_nodup h)
  have hdropnd : ((listSnapshotsSorted store).drop maxSnaps).Nodup :=
    hsortnd.sublist (List.drop_sublist maxSnaps _)
  have hdropsub : ∀ f ∈ (listSnapshotsSorted store).drop maxSnaps, f ∈ store :=
    fun f hf => hperm.mem_iff.mp ((List.drop_sublist maxSnaps _).subset hf)
  unfold enforceSnapshotLimit
  rw [runDeletes_filter _ store hdropnd (goodStore_nodup h) hdropsub
    (fun f hf g hg hb => (h.2 f (hdropsub f hf) g hg hb).symm)]
  have hsplit := @List.length_eq_length_filter_add SnapFile store
    (fun g => decide (g ∈ (listSnapshotsSorted store).drop maxSnaps))
  have hkept : (store.filter
      (fun g => decide (g ∈ (listSnapshotsSorted store).drop maxSnaps))).length =
      ((listSnapshotsSorted store).drop maxSnaps).length := by
    apply List.Perm.length_eq
    rw [List.perm_ext_iff_of_nodup ((goodStore_nodup h).filter _) hdropnd]
    intro x
    rw [List.mem_filter]
    constructor
    · intro hx
      exact of_decide_eq_true hx.2
    · intro hx
      exact ⟨hdropsub x hx, decide_eq_true hx⟩
  have hdroplen : ((listSnapshotsSorted store).drop maxSnaps).length =
      store.length - maxSnaps := by
    rw [List.length_drop, hperm.length_eq]
  omega

/-- C6, counterexample: at store-open only the 30-day age rule runs; a
directory of 51 recent snapshots stays at 51 (> `MAX_SNAPSHOTS`) after the
open-time cleanup, so the claimed "at most 50 after either trigger" fails. -/
theorem c6_open_keeps_51 :
    (openStore 1000 recent51).length = 51 ∧
      MAX_SNAPSHOTS < (openStore 1000 recent51).length := by
  constructor
  · decide
  · decide

/-- C6, amended: the two eviction rules run separately: on every store-open
only the 30-day age rule runs (the survivors are exactly the snapshots
within 30 days of now, the count rule is not applied), and after every save
only the 50-count rule runs (afterwards at most `maxSnaps` snapshots
remain, the age rule is not applied).  Stated for directories whose
snapshot ids do not collide as substrings of other file names. -/
theorem c6_eviction_rules (now : Int) (store : List SnapFile) (maxSnaps : ℕ)
    (ts : Int) (name : String) (h : GoodStore store) :
    openStore now store =
        store.filter (fun f => !decide (f.ts < now - MAX_AGE_MS)) ∧
      (GoodStore (store ++ [{ ts := ts, name := sanitize name }]) →
        (saveSnapshotFile maxSnaps ts name store).length =
          min (store.length + 1) maxSnaps) := by
  refine ⟨cleanupOldSnapshots_filter now store h, ?_⟩
  intro h2
  unfold saveSnapshotFile
  rw [enforceSnapshotLimit_length maxSnaps _ h2]
  simp

/-- C6, witness instantiation: a two-file directory, opened with a recent
clock, then a save with the limit set to 1. -/
theorem c6_eviction_rules_witness :
    openStore 1000 goodDemoFiles =
        goodDemoFiles.filter (fun f => !decide (f.ts < 1000 - MAX_AGE_MS)) ∧
      (saveSnapshotFile 1 33 "c" goodDemoFiles).length =
        min (goodDemoFiles.length + 1) 1 := by
  have h := c6_eviction_rules 1000 goodDemoFiles 1 33 "c" (by decide)
  exact ⟨h.1, h.2 (by decide)⟩

/-- C10: snapshot lookup by id is substring-based: `loadSnapshot` and
`deleteSnapshot` select the first stored file whose name contains the id as
a substring, and report not-found exactly when no file name contains it;
consequently, in a store where the requested id occurs inside another
snapshot's file name first, the selected (or deleted) snapshot differs from
the requested one (id `12` selects the file of snapshot `123`, and deleting
`12` removes snapshot `123`'s file while snapshot `12`'s file remains). -/
theorem c10_substring_lookup :
    (∀ (store : List SnapFile) (id : String) (f : SnapFile),
      findFile id store = some f →
        f ∈ store ∧ strContains (fileNameOf f) id = true ∧
          ∃ pre suf, store = pre ++ f :: suf ∧
            ∀ g ∈ pre, strContains (fileNameOf g) id = false) ∧
      (∀ (store : List SnapFile) (id : String),
        findFile id store = none ↔
          ∀ f ∈ store, strContains (fileNameOf f) id = false) ∧
      (findFile "12" demoFiles = some { ts := 123, name := "b" } ∧
        idOf { ts := 123, name := "b" } ≠ "12" ∧
        deleteByIdOpt "12" demoFiles = some [{ ts := 12, name := "a" }]) := by
  refine ⟨?_, ?_, rfl, by decide, rfl⟩
  · intro store id f hf
    unfold findFile at hf
    obtain ⟨hpf, pre, suf, heq, hall⟩ := List.find?_eq_some.mp hf
    refine ⟨List.mem_of_find?_eq_some hf, hpf, pre, suf, heq, ?_⟩
    intro g hg
    have := hall g hg
    cases hb : strContains (fileNameOf g) id with
    | false => rfl
    | true => rw [hb] at this; cases this
  · intro store id
    unfold findFile
    rw [List.find?_eq_none]
    constructor
    · intro hall f hfm
      cases hb : strContains (fileNameOf f) id with
      | false => rfl
      | true => exact absurd hb (hall f hfm)
    · intro hall f hfm hb
      rw [hall f hfm] at hb
      cases hb

/-- C10, witness instantiation: the substring selection at the colliding
two-file directory. -/
theorem c10_substring_lookup_witness :
    ({ ts := 123, name := "b" } : SnapFile) ∈ demoFiles ∧
      strContains (fileNameOf { ts := 123, name := "b" }) "12" = true := by
  have h := c10_substring_lookup.1 demoFiles "12" { ts := 123, name := "b" } rfl
  exact ⟨h.1, h.2.1⟩

end XRay

